import Mathlib

/-!
# Pyston traceback subsystem (`src/runtime/traceback.cpp`)

A shallow embedding of `printTraceback`, `BoxedTraceback::getLines`,
`BoxedTraceback::here`, `BoxedTraceback::dealloc` and
`BoxedTraceback::traverse`, followed by the properties established about them.

Conventions of the embedding:
* a pointer is a natural number, `0` is `NULL`, the heap is a list of cells and
  the object at address `a` lives at index `a - 1`; `new` appends a cell, so a
  fresh address never aliases a live or a freed one;
* text is a list of characters, one per byte; a C string is read up to its
  first NUL;
* a run that leaves defined behaviour ends in one of the `Fault`s;
* the macros of the CPython object protocol that the file uses (`Py_INCREF`,
  `Py_DECREF`, `Py_XDECREF`, `Py_VISIT`) and the calls of `stdio` (`fopen`,
  `getline`, `fprintf`) are embedded by their documented behaviour;
* one call of `fprintf` writes its output when that is at most `INT_MAX` bytes,
  and fails with `EOVERFLOW` otherwise;
* the constructor of `BoxedTraceback` is declared in `runtime/traceback.h`,
  outside the file: whether it runs `Py_INCREF(tb_next)` is a parameter.
-/

namespace pyston

/-! ## Text, C strings and `stdio` -/

/-- The NUL byte that terminates a C string. -/
def NUL : Char := Char.ofNat 0
/-- Line feed. -/
def LF : Char := Char.ofNat 10
/-- Carriage return. -/
def CR : Char := Char.ofNat 13
/-- Horizontal tab. -/
def TAB : Char := Char.ofNat 9
/-- Space. -/
def SP : Char := Char.ofNat 32

/-- The ways a run can leave defined behaviour. -/
inductive Fault
  /-- A failed `assert`. -/
  | assertion
  /-- A read outside the buffer that `getline` filled. -/
  | outOfBounds
  /-- A dereference of `NULL`, of a freed object, or of an object of another class. -/
  | badPointer
  /-- A pointer chain that does not end (a cyclic `tb_next` chain). -/
  | diverges
  /-- The destruction of the `None` singleton. -/
  | deallocNone
  /-- A call of `fprintf` whose output is longer than `INT_MAX` bytes: the call
  fails with `EOVERFLOW` and what it has written of its output is not specified. -/
  | overflow
deriving DecidableEq

deriving instance DecidableEq for Except

/-- What `%s` prints of a character array: the bytes before the first NUL. -/
def c_str (s : List Char) : List Char :=
  s.takeWhile (fun c => c ≠ NUL)

/-- The conversion `(int)r` of a `size_t` to a 32-bit `int`. -/
def toInt32 (r : Nat) : Int :=
  if r % 2 ^ 32 < 2 ^ 31 then ((r % 2 ^ 32 : Nat) : Int) else ((r % 2 ^ 32 : Nat) : Int) - 2 ^ 32

/-- What `%.*s` prints: at most `prec` bytes, stopping at a NUL; a negative
precision counts as no precision. -/
def fmtPrecS (prec : Int) (s : List Char) : List Char :=
  if prec < 0 then c_str s else c_str (s.take prec.toNat)

/-- The largest `int`, which is also the largest value `fprintf` can return. -/
def INT_MAX : Nat := 2147483647

/-- One call `fprintf(stderr, ...)` whose formatted output is `out`: the output
is written when the number of its bytes can be returned, that is when it is at
most `INT_MAX`. -/
def fprintf (out : List Char) : Except Fault (List Char) :=
  if out.length ≤ INT_MAX then .ok out else .error .overflow

/-- What `%d` prints. -/
def fmtD (n : Int) : List Char :=
  (toString n).toList

/-- The bytes of one line: up to and including the first line feed, or up to
the end of the file; and what is left of the file after it. -/
def readLine : List Char → List Char × List Char
  | [] => ([], [])
  | c :: cs => if c = LF then ([c], cs) else ((c :: (readLine cs).1), (readLine cs).2)

/-- The call `getline(&buf, &size, f)` on a stream whose unread part is `f`:
`none` is the return value `-1` (end of file), otherwise the line read (its
length is the return value `r`, the buffer is the line followed by a NUL) and
the rest of the stream. -/
def getline (f : List Char) : Option (List Char × List Char) :=
  match f with
  | [] => none
  | _ :: _ => some (readLine f)

/-- The loop `for (int i = 1; i < line.line; i++) getline(...)` run `n` times:
each line read is thrown away, a failed read changes nothing. -/
def skipLines : Nat → List Char → List Char
  | 0, f => f
  | n + 1, f =>
    match getline f with
    | none => skipLines n f
    | some (_, rest) => skipLines n rest

/-- The loop `while (buf[r - 1] == '\n' or buf[r - 1] == '\r') r--;`.
With `r = 0` the index `r - 1` of the `size_t` `r` is `SIZE_MAX`, a read outside
the buffer. -/
def stripTrailing (buf : List Char) : Nat → Except Fault Nat
  | 0 => .error .outOfBounds
  | r + 1 =>
    match buf[r]? with
    | none => .error .outOfBounds
    | some c => if c = LF ∨ c = CR then stripTrailing buf r else .ok (r + 1)

/-- The loop `while (*ptr == ' ' || *ptr == '\t') { ptr++; r--; }`; the
pointer `ptr` is the part of the buffer from `ptr` on, `r--` is that of a
`size_t`. Reading at the end of the buffer is a read outside it. -/
def stripLeading : List Char → Nat → Except Fault (List Char × Nat)
  | [], _ => .error .outOfBounds
  | c :: cs, r =>
    if c = SP ∨ c = TAB then stripLeading cs ((r + (2 ^ 64 - 1)) % 2 ^ 64) else .ok (c :: cs, r)

/-- Lines 67 to 79 of `printTraceback` for a target line `ln` that `getline`
returned (`r = ln.length`, the buffer is `ln` and its terminating NUL): the two
strip loops and `fprintf(stderr, "    %.*s\n", (int)r, ptr)`. The result is the
text written to `stderr`. -/
def printSourceLine (ln : List Char) : Except Fault (List Char) :=
  match stripTrailing (ln ++ [NUL]) ln.length with
  | .error e => .error e
  | .ok r =>
    match stripLeading (ln ++ [NUL]) r with
    | .error e => .error e
    | .ok (ptr, r2) => fprintf ("    ".toList ++ fmtPrecS (toInt32 r2) ptr ++ [LF])

/-! ## Objects and the heap -/

/-- A pointer (`Box*`): `0` is `NULL`. -/
abbrev Addr := Nat

/-- The null pointer. -/
def NULL : Addr := 0

/-- The address of the `None` singleton, the empty-traceback marker. -/
def None : Addr := 1

/-- The record `LineInfo`: `file` and `func` point to `BoxedString`s. -/
structure LineInfo where
  /-- The line number. -/
  line : Int
  /-- The file name, a `BoxedString*`. -/
  file : Addr
  /-- The function name, a `BoxedString*`. -/
  func : Addr
deriving DecidableEq

/-- The payload of an object, by class. -/
inductive Obj
  /-- The `None` singleton. -/
  | none
  /-- A `BoxedString` and its bytes. -/
  | str (s : List Char)
  /-- A boxed integer. -/
  | int (n : Int)
  /-- A `BoxedTuple` and its elements. -/
  | tuple (elts : List Addr)
  /-- A `BoxedList` and its elements. -/
  | list (elts : List Addr)
  /-- A `BoxedTraceback`: the fields `tb_next`, `line` and `py_lines`
  (`py_lines = NULL` while nothing is cached). -/
  | traceback (tb_next : Addr) (line : LineInfo) (py_lines : Addr)
deriving DecidableEq

/-- A heap object: its reference count (a `Py_ssize_t`) and its payload. -/
structure Box where
  /-- The field `ob_refcnt`. -/
  ob_refcnt : Int
  /-- The payload. -/
  obj : Obj
deriving DecidableEq

/-- The heap: cell `a - 1` holds the object at address `a`, `none` once it is freed. -/
abbrev Heap := List (Option Box)

/-- The object at an address, `none` for `NULL`, a freed or a never allocated address. -/
def Heap.at (h : Heap) (a : Addr) : Option Box :=
  match a with
  | 0 => none
  | a + 1 => (h[a]?).join

/-- Store an object at an allocated address. -/
def Heap.put (h : Heap) (a : Addr) (b : Option Box) : Heap :=
  match a with
  | 0 => h
  | a + 1 => h.set a b

/-- The call `s->c_str()` on a `BoxedString*`. -/
def strAt (h : Heap) (a : Addr) : Except Fault (List Char) :=
  match h.at a with
  | some ⟨_, .str s⟩ => .ok s
  | _ => .error .badPointer

/-! ## `printTraceback` -/

/-- The file system as `fopen(path, "r")` sees it: the content of the file at
a path, `none` when it cannot be opened. -/
abbrev FS := List Char → Option (List Char)

/-- The formatted output of `"  File \"%s\", line %d, in %s\n"`. -/
def fileLine (file : List Char) (line : Int) (func : List Char) : List Char :=
  "  File \"".toList ++ c_str file ++ "\", line ".toList ++ fmtD line ++ ", in ".toList
    ++ c_str func ++ [LF]

/-- Lines 54 to 81: what is written after the `File` line of a frame whose
line number is not negative. -/
def printSource (fs : FS) (file : List Char) (line : Int) : Except Fault (List Char) :=
  match fs (c_str file) with
  | none => .ok []
  | some content =>
    if line < 10000000 then
      match getline (skipLines (line - 1).toNat content) with
      | none => .ok []
      | some (ln, _) => printSourceLine ln
    else .error .assertion

/-- What a run of `printTraceback` did: the text written to `stderr` and the
paths passed to `fopen`, oldest first. -/
structure Report where
  /-- The text written to `stderr`. -/
  text : List Char
  /-- The paths passed to `fopen`. -/
  opened : List (List Char)
deriving DecidableEq

/-- The body of the loop of `printTraceback` (lines 48 to 81) for one frame,
added to the report `rep`. -/
def printFrame (fs : FS) (file : List Char) (line : Int) (func : List Char) (rep : Report) :
    Except Fault Report :=
  match fprintf (fileLine file line func) with
  | .error e => .error e
  | .ok txt =>
    if line < 0 then .ok { rep with text := rep.text ++ txt }
    else
      match printSource fs file line with
      | .error e => .error e
      | .ok src =>
        .ok { text := rep.text ++ txt ++ src, opened := rep.opened ++ [c_str file] }

/-- The loop `for (; tb && tb != None; tb = tb->tb_next)` of `printTraceback`,
run for at most `fuel` nodes; `rep` is what was done so far. -/
def printLoop (fs : FS) (h : Heap) : Nat → Addr → Report → Except Fault Report
  | 0, tb, rep => if tb = NULL ∨ tb = None then .ok rep else .error .diverges
  | fuel + 1, tb, rep =>
    if tb = NULL ∨ tb = None then .ok rep
    else
      match h.at tb with
      | some ⟨_, .traceback next line _⟩ =>
        match strAt h line.file, strAt h line.func with
        | .ok file, .ok func =>
          match printFrame fs file line.line func rep with
          | .error e => .error e
          | .ok rep1 => printLoop fs h fuel next rep1
        | _, _ => .error .badPointer
      | _ => .error .badPointer

/-- The formatted output of `"Traceback (most recent call last):\n"`. -/
def header : List Char := "Traceback (most recent call last):\n".toList

/-- The function `printTraceback(Box* b)`; `assert(b->cls == traceback_cls)`
fails on an object of another class. The loop gets as many turns as the heap
has cells: a chain that ends has no more nodes (`isChain_length_le`). -/
def printTraceback (fs : FS) (h : Heap) (b : Addr) : Except Fault Report :=
  if b = None then .ok ⟨[], []⟩
  else
    match h.at b with
    | some ⟨_, .traceback _ _ _⟩ =>
      match fprintf header with
      | .error e => .error e
      | .ok txt => printLoop fs h h.length b ⟨txt, []⟩
    | some _ => .error .assertion
    | none => .error .badPointer

/-! ## Allocation and `BoxedTraceback.getLines` -/

/-- The allocation `new T(...)`: the object gets the next address and one reference. -/
def alloc (h : Heap) (o : Obj) : Heap × Addr :=
  (h ++ [some ⟨1, o⟩], h.length + 1)

/-- The call `listAppendInternal(lines, l)`: `l` becomes the last element of
the list `lines`. The reference counts that the sequence and record
constructors (`BoxedList`, `BoxedTuple::create`, `boxInt`, all outside
`traceback.cpp`) keep are not part of the embedding. -/
def listAppendInternal (h : Heap) (lines l : Addr) : Except Fault Heap :=
  match h.at lines with
  | some ⟨rc, .list es⟩ => .ok (h.put lines (some ⟨rc, .list (es ++ [l])⟩))
  | _ => .error .badPointer

/-- The call `boxInt(n)`: a new boxed integer. -/
def boxInt (h : Heap) (n : Int) : Heap × Addr :=
  alloc h (.int n)

/-- The call `BoxedTuple::create({...})`: a new tuple of the given elements. -/
def BoxedTuple_create (h : Heap) (elts : List Addr) : Heap × Addr :=
  alloc h (.tuple elts)

/-- The body of the loop of `BoxedTraceback.getLines` (lines 93 to 95) for a node with the
location `line`: the tuple `(line.file, line.func, boxInt(line.line))` is
created and added to the list `lines`. -/
def appendLine (h : Heap) (lines : Addr) (line : LineInfo) : Except Fault Heap :=
  let n := boxInt h line.line
  let l := BoxedTuple_create n.1 [line.file, line.func, n.2]
  listAppendInternal l.1 lines l.2

/-- The loop of `BoxedTraceback.getLines` (lines 92 to 96) from the node `wtb` on, run for at
most `fuel` nodes. -/
def getLinesLoop (lines : Addr) : Nat → Heap → Addr → Except Fault Heap
  | 0, h, wtb => if wtb = NULL ∨ wtb = None then .ok h else .error .diverges
  | fuel + 1, h, wtb =>
    if wtb = NULL ∨ wtb = None then .ok h
    else
      match h.at wtb with
      | some ⟨_, .traceback next line _⟩ =>
        match appendLine h lines line with
        | .error e => .error e
        | .ok h3 => getLinesLoop lines fuel h3 next
      | _ => .error .badPointer

/-- The assignment `tb->py_lines = lines`. -/
def setPyLines (h : Heap) (tb lines : Addr) : Except Fault Heap :=
  match h.at tb with
  | some ⟨rc, .traceback next line _⟩ => .ok (h.put tb (some ⟨rc, .traceback next line lines⟩))
  | _ => .error .badPointer

/-- The lines 91 to 97 of `BoxedTraceback.getLines`, run when the cache is empty: the list is
created, filled by the loop and stored in `tb->py_lines`. The loop gets as many
turns as the heap has cells before the call. -/
def buildLines (h : Heap) (tb : Addr) : Except Fault (Heap × Addr) :=
  let lines := alloc h (.list [])
  match getLinesLoop lines.2 h.length lines.1 tb with
  | .error e => .error e
  | .ok h2 =>
    match setPyLines h2 tb lines.2 with
    | .error e => .error e
    | .ok h3 => .ok (h3, lines.2)

/-- The method `BoxedTraceback::getLines(Box* b)`: the heap after the call and
the pointer returned; `assert(b->cls == traceback_cls)` fails on an object of
another class. -/
def BoxedTraceback.getLines (h : Heap) (b : Addr) : Except Fault (Heap × Addr) :=
  match h.at b with
  | some ⟨_, .traceback _ _ py_lines⟩ =>
    if py_lines = NULL then buildLines h b else .ok (h, py_lines)
  | some _ => .error .assertion
  | none => .error .badPointer

/-! ## Reference counts, `BoxedTraceback.here` and `BoxedTraceback.dealloc` -/

/-- The state of the collector's side of a run: the heap and the addresses on
which `BoxedTraceback::dealloc` was entered, oldest first. -/
structure Runtime where
  /-- The heap. -/
  heap : Heap
  /-- The calls of `BoxedTraceback::dealloc` so far. -/
  deallocs : List Addr
deriving DecidableEq

/-- The macro `Py_INCREF(op)` of the CPython object protocol: `op->ob_refcnt++`. -/
def Py_INCREF (h : Heap) (op : Addr) : Except Fault Heap :=
  match h.at op with
  | some ⟨rc, o⟩ => .ok (h.put op (some ⟨rc + 1, o⟩))
  | none => .error .badPointer

/-- The call `PyObject_GC_Del(b)` (and `free` for an untracked object): the
cell is released; releasing a released cell is a double free. -/
def PyObject_GC_Del (rt : Runtime) (b : Addr) : Except Fault Runtime :=
  match rt.heap.at b with
  | some _ => .ok { rt with heap := rt.heap.put b none }
  | none => .error .badPointer

/-- The macro `Py_XDECREF(op)` of the CPython object protocol,
`if (op != NULL) Py_DECREF(op)`, over a given `Py_DECREF`. -/
def Py_XDECREF (decref : Runtime → Addr → Except Fault Runtime) (rt : Runtime) (op : Addr) :
    Except Fault Runtime :=
  if op = NULL then .ok rt else decref rt op

/-- The field `self->tb_next`, `self->py_lines`, `self->line.file` or
`self->line.func` of a traceback node, picked by `sel`. -/
def tbField (sel : Addr → LineInfo → Addr → Addr) (h : Heap) (self : Addr) : Except Fault Addr :=
  match h.at self with
  | some ⟨_, .traceback next line py_lines⟩ => .ok (sel next line py_lines)
  | _ => .error .badPointer

/-- The destructor `BoxedTraceback::dealloc(Box* b)` (lines 109 to 118), over
the `Py_DECREF` that its releases run. -/
def BoxedTraceback.dealloc (decref : Runtime → Addr → Except Fault Runtime) (rt : Runtime) (b : Addr) :
    Except Fault Runtime := do
  let rt0 : Runtime := { rt with deallocs := rt.deallocs ++ [b] }
  let next ← tbField (fun n _ _ => n) rt0.heap b
  let rt1 ← decref rt0 next
  let py_lines ← tbField (fun _ _ p => p) rt1.heap b
  let rt2 ← Py_XDECREF decref rt1 py_lines
  let file ← tbField (fun _ l _ => l.file) rt2.heap b
  let rt3 ← decref rt2 file
  let func ← tbField (fun _ l _ => l.func) rt3.heap b
  let rt4 ← decref rt3 func
  PyObject_GC_Del rt4 b

/-- The call `Py_TYPE(op)->tp_dealloc(op)`: `BoxedTraceback::dealloc` for a
traceback node; `None` is never destroyed; a string, integer, tuple or list is
freed. The sequence and record classes are outside the file: in the embedding
their constructors take no reference to their elements, and their destructors
release none. -/
def tp_dealloc (decref : Runtime → Addr → Except Fault Runtime) (rt : Runtime) (op : Addr) :
    Except Fault Runtime :=
  match rt.heap.at op with
  | some ⟨_, .traceback _ _ _⟩ => BoxedTraceback.dealloc decref rt op
  | some ⟨_, .none⟩ => .error .deallocNone
  | some ⟨_, .str _⟩ => PyObject_GC_Del rt op
  | some ⟨_, .int _⟩ => PyObject_GC_Del rt op
  | some ⟨_, .tuple _⟩ => PyObject_GC_Del rt op
  | some ⟨_, .list _⟩ => PyObject_GC_Del rt op
  | none => .error .badPointer

/-- The macro `Py_DECREF(op)` of the CPython object protocol,
`if (--op->ob_refcnt == 0) Py_TYPE(op)->tp_dealloc(op)`, with destructors nested
at most `depth` deep. -/
def decref : Nat → Runtime → Addr → Except Fault Runtime
  | 0, _, _ => .error .diverges
  | depth + 1, rt, op =>
    match rt.heap.at op with
    | some ⟨rc, o⟩ =>
      if rc - 1 = 0 then
        tp_dealloc (decref depth) { rt with heap := rt.heap.put op (some ⟨rc - 1, o⟩) } op
      else .ok { rt with heap := rt.heap.put op (some ⟨rc - 1, o⟩) }
    | none => .error .badPointer

/-- The macro `Py_DECREF(op)`: every nested destructor runs on another object
of the heap, so the nesting is at most as deep as the heap has cells. -/
def Py_DECREF (rt : Runtime) (op : Addr) : Except Fault Runtime :=
  decref (rt.heap.length + 1) rt op

/-- The constructor `BoxedTraceback(LineInfo line, Box* tb_next)`. It is
declared in `runtime/traceback.h`, which is not among the sources: it sets
`tb_next`, `line` and `py_lines = NULL`, and `increfNext` says whether it also
runs `Py_INCREF(tb_next)`. -/
def newBoxedTraceback (increfNext : Bool) (h : Heap) (line : LineInfo) (tb_next : Addr) :
    Except Fault (Heap × Addr) :=
  if increfNext then
    match Py_INCREF h tb_next with
    | .error e => .error e
    | .ok h1 => .ok (alloc h1 (.traceback tb_next line NULL))
  else .ok (alloc h (.traceback tb_next line NULL))

/-- Modelled from the spec: the constructor `BoxedTraceback(LineInfo, Box*)` is
declared in `runtime/traceback.h`, which is not among the sources; the
specification has it take "ownership of the passed-in reference to `next` (no
incref on `next`; the caller's reference is transferred, not duplicated)", so
this constructor does not run `Py_INCREF(tb_next)`. -/
def specCtorIncrefsNext : Bool := false

/-- The function `BoxedTraceback::here(LineInfo lineInfo, Box** tb)`; `slot` is
the value of `*tb` before the call, the result holds the value of `*tb` after it. -/
def BoxedTraceback.here (increfNext : Bool) (rt : Runtime) (lineInfo : LineInfo) (slot : Addr) :
    Except Fault (Runtime × Addr) :=
  match newBoxedTraceback increfNext rt.heap lineInfo slot with
  | .error e => .error e
  | .ok (h1, tb) =>
    match Py_DECREF { rt with heap := h1 } slot with
    | .error e => .error e
    | .ok rt2 => .ok (rt2, tb)

/-- Calls of `BoxedTraceback.here` on one slot, one per location, in the order of the list. -/
def hereAll (increfNext : Bool) : Runtime → Addr → List LineInfo → Except Fault (Runtime × Addr)
  | rt, slot, [] => .ok (rt, slot)
  | rt, slot, l :: ls =>
    match BoxedTraceback.here increfNext rt l slot with
    | .error e => .error e
    | .ok (rt1, slot1) => hereAll increfNext rt1 slot1 ls

/-! ## `BoxedTraceback.traverse` -/

/-- The macro `Py_VISIT(op)` of the CPython object protocol:
`if (op) { int vret = visit(op, arg); if (vret) return vret; }`. The result is
the callback's state and `some vret` when the enclosing function returns. -/
def Py_VISIT {σ : Type} (visit : Addr → σ → Int × σ) (op : Addr) (arg : σ) : Option Int × σ :=
  if op = NULL then (none, arg)
  else if (visit op arg).1 = 0 then (none, (visit op arg).2)
  else (some (visit op arg).1, (visit op arg).2)

/-- The function `BoxedTraceback::traverse(Box* self, visitproc visit, void* arg)`:
the value returned and the callback's state after the call. -/
def BoxedTraceback.traverse {σ : Type} (h : Heap) (self : Addr) (visit : Addr → σ → Int × σ) (arg : σ) :
    Except Fault (Int × σ) :=
  match h.at self with
  | some ⟨_, .traceback tb_next line py_lines⟩ =>
    match Py_VISIT visit tb_next arg with
    | (some vret, s1) => .ok (vret, s1)
    | (none, s1) =>
      match Py_VISIT visit py_lines s1 with
      | (some vret, s2) => .ok (vret, s2)
      | (none, s2) =>
        match Py_VISIT visit line.file s2 with
        | (some vret, s3) => .ok (vret, s3)
        | (none, s3) =>
          match Py_VISIT visit line.func s3 with
          | (some vret, s4) => .ok (vret, s4)
          | (none, s4) => .ok (0, s4)
  | _ => .error .badPointer

/-! ## The rendering as the specification words it -/

/-- A character that the specification strips from the end of a line: `\n` or `\r`. -/
def isEol (c : Char) : Bool := c = LF || c = CR

/-- A character that the specification strips from the start of a line: space or tab. -/
def isBlank (c : Char) : Bool := c = SP || c = TAB

/-- The stripped text of a line as the specification words it: all trailing
`\n` and `\r` removed, then all leading spaces and tabs removed. -/
def strippedText (ln : List Char) : List Char :=
  (ln.rdropWhile isEol).dropWhile isBlank

/-- The line the specification expects for a source line: four spaces, the
stripped text, a newline. -/
def sourceLineText (ln : List Char) : List Char :=
  "    ".toList ++ strippedText ln ++ [LF]

/-- The chain that starts at `a` is made of traceback nodes whose locations
are `nodes`, head first, and ends at the `None` marker. -/
def isChain (h : Heap) : Addr → List LineInfo → Bool
  | a, [] => decide (a = None)
  | a, li :: rest =>
    match h.at a with
    | some ⟨_, .traceback next line _⟩ =>
      decide (a ≠ None) && decide (line = li) && isChain h next rest
    | _ => false

/-- The addresses of the nodes of a chain, head first. -/
def chainAddrs (h : Heap) : Addr → List LineInfo → List Addr
  | _, [] => []
  | a, _ :: rest =>
    a :: (match h.at a with
      | some ⟨_, .traceback next _ _⟩ => chainAddrs h next rest
      | _ => [])

/-- The `k`-th line of a file, counted from `0`: what the `k + 1`-th call of
`getline` returns, `none` when the file has no such line. -/
def nthLine : Nat → List Char → Option (List Char)
  | 0, f => (getline f).map (fun p => p.1)
  | k + 1, f => (getline f).bind (fun p => nthLine k p.2)

/-- The target line of a frame as the specification words it: line `line`
(counted from `1`) of the file at the path `file`, `none` when the file cannot
be opened or has fewer lines. -/
def targetLine (fs : FS) (file : List Char) (line : Int) : Option (List Char) :=
  (fs (c_str file)).bind (nthLine (line - 1).toNat)

/-- The text of a string object, empty when the pointer does not name one. -/
def textAt (h : Heap) (a : Addr) : List Char :=
  match strAt h a with
  | .ok s => s
  | .error _ => []

/-- The two lines the specification expects for a frame: the `File` line and
the source line made of the stripped text of the target line. -/
def expectedFrame (fs : FS) (h : Heap) (li : LineInfo) : List Char :=
  fileLine (textAt h li.file) li.line (textAt h li.func)
    ++ sourceLineText ((targetLine fs (textAt h li.file) li.line).getD [])

/-- The frames the whole-report statement is about: `file` and `func` name
strings and the `File` line is at most `INT_MAX` bytes;
`1 <= line < 10,000,000`, the file opens and has at least `line` lines; and the
target line has no NUL, has a character other than `\n` and `\r`, and its source
line is at most `INT_MAX` bytes. -/
def renderable (fs : FS) (h : Heap) (li : LineInfo) : Bool :=
  decide (1 ≤ li.line) && decide (li.line < 10000000)
    && (match strAt h li.file, strAt h li.func with
        | .ok f, .ok g => decide ((fileLine f li.line g).length ≤ INT_MAX)
        | _, _ => false)
    && (match targetLine fs (textAt h li.file) li.line with
        | some ln =>
          decide (NUL ∉ ln) && ln.any (fun c => !isEol c)
            && decide ((sourceLineText ln).length ≤ INT_MAX)
        | none => false)

/-- The frames of a list rendered in order, as the loop of `printTraceback`
does for the nodes of a chain: the body of the loop for each, until one faults. -/
def renderFrames (fs : FS) (h : Heap) : List LineInfo → Report → Except Fault Report
  | [], rep => .ok rep
  | li :: rest, rep =>
    match strAt h li.file, strAt h li.func with
    | .ok file, .ok func =>
      match printFrame fs file li.line func rep with
      | .error e => .error e
      | .ok rep1 => renderFrames fs h rest rep1
    | _, _ => .error .badPointer

/-- The references a traceback node owns, in the order of its fields
`tb_next`, `py_lines`, `line.file`, `line.func`: the pointers among them that
are not `NULL` (`py_lines` is `NULL` until `BoxedTraceback.getLines` caches a list). -/
def ownedRefs (h : Heap) (self : Addr) : List Addr :=
  match h.at self with
  | some ⟨_, .traceback tb_next line py_lines⟩ =>
    [tb_next, py_lines, line.file, line.func].filter (fun p => p ≠ NULL)
  | _ => []

/-- A visit callback that also records the object it is called on: its state is
the list of the objects visited so far, oldest first, and the state of `visit`. -/
def logging {σ : Type} (visit : Addr → σ → Int × σ) : Addr → List Addr × σ → Int × (List Addr × σ) :=
  fun op s => ((visit op s.2).1, (s.1 ++ [op], (visit op s.2).2))

/-- The state of a callback after it was called on the objects of a list in turn. -/
def visitAll {σ : Type} (visit : Addr → σ → Int × σ) (ops : List Addr) (arg : σ) : σ :=
  ops.foldl (fun s op => (visit op s).2) arg

/-- The record `(file, func, line)` that a tuple of `BoxedTraceback.getLines` stands for: its
two string pointers and the value of its boxed integer. -/
def recordAt (h : Heap) (t : Addr) : Option (Addr × Addr × Int) :=
  match h.at t with
  | some ⟨_, .tuple [file, func, n]⟩ =>
    (match h.at n with
      | some ⟨_, .int v⟩ => some (file, func, v)
      | _ => none)
  | _ => none

/-- The records of the elements of a list, in order. -/
def recordsOf (h : Heap) : List Addr → Option (List (Addr × Addr × Int))
  | [] => some []
  | e :: es =>
    match recordAt h e, recordsOf h es with
    | some r, some rs => some (r :: rs)
    | _, _ => none

/-- The sequence of records that a `BoxedList` of `BoxedTraceback.getLines` stands for. -/
def recordsAt (h : Heap) (lines : Addr) : Option (List (Addr × Addr × Int)) :=
  match h.at lines with
  | some ⟨_, .list es⟩ => recordsOf h es
  | _ => none

/-- The record `(file, func, line)` of a location. -/
def LineInfo.record (li : LineInfo) : Addr × Addr × Int :=
  (li.file, li.func, li.line)

/-- Calls of `BoxedTraceback.getLines` on the same node, `k` in a row: the heap after the
last one and the pointers returned, first call first. -/
def getLinesTimes : Nat → Heap → Addr → Except Fault (Heap × List Addr)
  | 0, h, _ => .ok (h, [])
  | k + 1, h, b =>
    match BoxedTraceback.getLines h b with
    | .error e => .error e
    | .ok (h1, r) =>
      match getLinesTimes k h1 b with
      | .error e => .error e
      | .ok (h2, rs) => .ok (h2, r :: rs)

/-- The heap `h2` holds every object of `h1` that is not at the address `L`. -/
def keepsExcept (L : Addr) (h1 h2 : Heap) : Prop :=
  ∀ a x, a ≠ L → h1.at a = some x → h2.at a = some x

/-- The element `e` is a tuple `(file, func, n)` with `n` a boxed integer, it
stands for the record `r`, and neither `e` nor `n` is the address `L`. -/
def isRecord (L : Addr) (h : Heap) (e : Addr) (r : Addr × Addr × Int) : Prop :=
  e ≠ L ∧ ∃ rc1 rc2 n, n ≠ L ∧ h.at e = some ⟨rc1, .tuple [r.1, r.2.1, n]⟩ ∧
    h.at n = some ⟨rc2, .int r.2.2⟩

/-- What the constructor adds to the count of `tb_next`. -/
def ctorIncrement (increfNext : Bool) : Int :=
  if increfNext then 1 else 0

/-- The chain that starts at `a` is made of the nodes `cells`, head first, each
given by its address and its location; every node has one reference and an
empty cache, and the chain ends at the `None` marker. -/
def ownsChain (h : Heap) : Addr → List (Addr × LineInfo) → Prop
  | a, [] => a = None
  | a, c :: rest =>
    a = c.1 ∧ a ≠ None ∧ ∃ next, h.at a = some ⟨1, .traceback next c.2 NULL⟩ ∧ ownsChain h next rest

/-- The string references that the nodes made from the locations `ls` own, in
the order of the locations: `file` and `func` of each. -/
def stringRefs (ls : List LineInfo) : List Addr :=
  ls.flatMap (fun l => [l.file, l.func])

/-- Every reference of the list `pending` is to a live string whose count
covers the references to it in the list. -/
def canRelease (h : Heap) (pending : List Addr) : Bool :=
  pending.all (fun s =>
    match h.at s with
    | some ⟨rc, .str _⟩ => decide ((pending.count s : Int) ≤ rc)
    | _ => false)

/-! ## Sample data -/

/-- A file of thirty lines whose lines 10, 20 and 30 are `x=1`, `  y=2` and `z=3`. -/
def sampleFile : List Char :=
  List.replicate 9 LF ++ "x=1\n".toList ++ List.replicate 9 LF ++ "  y=2\n".toList
    ++ List.replicate 9 LF ++ "z=3\n".toList

/-- A file system that holds `sampleFile` at `a.py`, a one-line file at
`short.py`, a line with a NUL byte at `nul.py`, and nothing else. -/
def sampleFS : FS := fun path =>
  if path = "a.py".toList then some sampleFile
  else if path = "short.py".toList then some "pass\n".toList
  else if path = "nul.py".toList then some ['a', NUL, 'b', LF]
  else none

/-- A heap with `None`, the strings `a.py`, `f`, `g`, `h`, and the chain built
by prepending `(a.py, f, 10)`, `(a.py, g, 20)`, `(a.py, h, 30)`; its head is at `8`. -/
def sampleHeap : Heap :=
  [some ⟨10, .none⟩, some ⟨3, .str "a.py".toList⟩, some ⟨1, .str "f".toList⟩,
   some ⟨1, .str "g".toList⟩, some ⟨1, .str "h".toList⟩,
   some ⟨1, .traceback 1 ⟨10, 2, 3⟩ 0⟩, some ⟨1, .traceback 6 ⟨20, 2, 4⟩ 0⟩,
   some ⟨1, .traceback 7 ⟨30, 2, 5⟩ 0⟩]

/-- The heap `sampleHeap` after `BoxedTraceback.getLines` on its head: the list at `9`, the
boxed line numbers and the tuples after it, and the cache of the head set. -/
def cachedHeap : Heap :=
  [some ⟨10, .none⟩, some ⟨3, .str "a.py".toList⟩, some ⟨1, .str "f".toList⟩,
   some ⟨1, .str "g".toList⟩, some ⟨1, .str "h".toList⟩,
   some ⟨1, .traceback 1 ⟨10, 2, 3⟩ 0⟩, some ⟨1, .traceback 6 ⟨20, 2, 4⟩ 0⟩,
   some ⟨1, .traceback 7 ⟨30, 2, 5⟩ 9⟩, some ⟨1, .list [11, 13, 15]⟩,
   some ⟨1, .int 30⟩, some ⟨1, .tuple [2, 5, 10]⟩, some ⟨1, .int 20⟩,
   some ⟨1, .tuple [2, 4, 12]⟩, some ⟨1, .int 10⟩, some ⟨1, .tuple [2, 3, 14]⟩]

/-- A heap whose chain, head at `4`, has one frame, at line 1 of `nul.py`. -/
def nulHeap : Heap :=
  [some ⟨10, .none⟩, some ⟨1, .str "nul.py".toList⟩, some ⟨1, .str "f".toList⟩,
   some ⟨1, .traceback 1 ⟨1, 2, 3⟩ 0⟩]

/-- A heap with `None` and the strings `a.py`, `f`, `g`, `h`, before any frame
is captured. -/
def baseHeap : Heap :=
  [some ⟨10, .none⟩, some ⟨3, .str "a.py".toList⟩, some ⟨1, .str "f".toList⟩,
   some ⟨1, .str "g".toList⟩, some ⟨1, .str "h".toList⟩]

/-- The locations `(a.py, f, 10)`, `(a.py, g, 20)`, `(a.py, h, 30)` over `baseHeap`. -/
def sampleLocations : List LineInfo :=
  [⟨10, 2, 3⟩, ⟨20, 2, 4⟩, ⟨30, 2, 5⟩]

/-! ## Properties of the strip loops -/

theorem isEol_iff (c : Char) : isEol c = true ↔ (c = LF ∨ c = CR) := by
  simp [isEol]

theorem isBlank_iff (c : Char) : isBlank c = true ↔ (c = SP ∨ c = TAB) := by
  simp [isBlank]

theorem not_blank_of_eol {c : Char} (h : isEol c = true) : ¬ (c = SP ∨ c = TAB) := by
  rcases (isEol_iff c).1 h with rfl | rfl <;> decide

theorem NUL_not_blank : ¬ (NUL = SP ∨ NUL = TAB) := by decide

/-- A list is what `rdropWhile` keeps of it followed by elements that all satisfy the test. -/
theorem rdropWhile_append_tail {α : Type} (p : α → Bool) (l : List α) :
    ∃ tail, l = l.rdropWhile p ++ tail ∧ ∀ c ∈ tail, p c = true := by
  induction l using List.reverseRecOn with
  | nil => exact ⟨[], by simp, by simp⟩
  | append_singleton l a ih =>
    obtain ⟨tail, h1, h2⟩ := ih
    by_cases hp : p a = true
    · refine ⟨tail ++ [a], ?_, ?_⟩
      · rw [List.rdropWhile_concat_pos _ _ _ hp, ← List.append_assoc, ← h1]
      · intro c hc
        rcases List.mem_append.1 hc with hc | hc
        · exact h2 c hc
        · simpa [List.mem_singleton.1 hc] using hp
    · exact ⟨[], by rw [List.rdropWhile_concat_neg _ _ _ hp]; simp, by simp⟩

/-- The trailing loop started at `r` stops at the length of what `rdropWhile`
keeps of the first `r` characters, when that is not empty. -/
theorem stripTrailing_eq (ln tl : List Char) :
    ∀ r, r ≤ ln.length → (ln.take r).rdropWhile isEol ≠ [] →
      stripTrailing (ln ++ tl) r = .ok ((ln.take r).rdropWhile isEol).length := by
  intro r
  induction r with
  | zero => intro _ h; simp at h
  | succ r ih =>
    intro hr hne
    have hlt : r < ln.length := hr
    have hget : (ln ++ tl)[r]? = some ln[r] := by
      rw [List.getElem?_append_left hlt, List.getElem?_eq_getElem hlt]
    have htake : ln.take (r + 1) = ln.take r ++ [ln[r]] := by
      rw [List.take_succ, List.getElem?_eq_getElem hlt]; rfl
    rw [stripTrailing, hget]
    by_cases hc : isEol ln[r] = true
    · have h1 : (ln[r] = LF ∨ ln[r] = CR) := (isEol_iff _).1 hc
      rw [htake, List.rdropWhile_concat_pos _ _ _ hc] at hne ⊢
      simp only [h1, if_true]
      exact ih (Nat.le_of_lt hlt) hne
    · have h1 : ¬ (ln[r] = LF ∨ ln[r] = CR) := fun h => hc ((isEol_iff _).2 h)
      rw [htake, List.rdropWhile_concat_neg _ _ _ hc]
      simp [h1]
      omega

/-- The leading loop skips a run of blanks that is followed by another
character, and takes one from `r` for each, as a `size_t` does. -/
theorem stripLeading_eq (ws : List Char) (c : Char) (t : List Char) (hc : ¬ (c = SP ∨ c = TAB)) :
    ∀ r, (∀ x ∈ ws, x = SP ∨ x = TAB) →
      ∃ r2, stripLeading (ws ++ c :: t) r = .ok (c :: t, r2) ∧
        r2 % 2 ^ 64 = (r + (2 ^ 64 - 1) * ws.length) % 2 ^ 64 := by
  induction ws with
  | nil => intro r _; exact ⟨r, by simp [stripLeading, hc], by simp⟩
  | cons w ws ih =>
    intro r hws
    have hw : w = SP ∨ w = TAB := hws w (List.mem_cons_self _ _)
    obtain ⟨r2, hrun, hmod⟩ :=
      ih ((r + (2 ^ 64 - 1)) % 2 ^ 64) (fun x hx => hws x (List.mem_cons_of_mem _ hx))
    refine ⟨r2, ?_, ?_⟩
    · rw [List.cons_append, stripLeading, if_pos hw]
      exact hrun
    · rw [hmod]
      have e : (2 : Nat) ^ 64 = 18446744073709551616 := by norm_num
      simp only [List.length_cons, e]
      omega

/-- The conversion `(int)r` of a `size_t` that is, modulo `2 ^ 64`, a length below `2 ^ 31`. -/
theorem toInt32_of_mod (r m : Nat) (hr : r % 2 ^ 64 = m) (hm : m < 2 ^ 31) :
    toInt32 r = (m : Int) := by
  have e31 : (2 : Nat) ^ 31 = 2147483648 := by norm_num
  have e32 : (2 : Nat) ^ 32 = 4294967296 := by norm_num
  have e64 : (2 : Nat) ^ 64 = 18446744073709551616 := by norm_num
  rw [e31] at hm
  rw [e64] at hr
  have hmod : r % 2 ^ 32 = m := by
    rw [e32]
    omega
  unfold toInt32
  rw [hmod, if_pos (by rw [e31]; exact hm)]

/-- The text `%s` prints of a list without NUL is the list. -/
theorem c_str_eq_self (s : List Char) (h : NUL ∉ s) : c_str s = s := by
  unfold c_str
  rw [List.takeWhile_eq_self_iff]
  intro x hx
  simp only [decide_eq_true_eq]
  rintro rfl
  exact h hx

/-- The length of the source line the specification expects. -/
theorem sourceLineText_length (ln : List Char) :
    (sourceLineText ln).length = (strippedText ln).length + 5 := by
  simp only [sourceLineText, List.length_append, List.length_singleton]
  have : "    ".toList.length = 4 := by decide
  omega

/-- The source line printed for a line that has a character other than `\n`
and `\r`, no NUL, and a source line of at most `INT_MAX` bytes. -/
theorem printSourceLine_eq (ln : List Char) (hnul : NUL ∉ ln)
    (hbody : ∃ c ∈ ln, ¬ (c = LF ∨ c = CR))
    (hfit : (sourceLineText ln).length ≤ INT_MAX) :
    printSourceLine ln = .ok (sourceLineText ln) := by
  have hne : ln.rdropWhile isEol ≠ [] := by
    intro h
    obtain ⟨c, hc, hn⟩ := hbody
    exact hn ((isEol_iff c).1 (List.rdropWhile_eq_nil_iff.1 h c hc))
  obtain ⟨tail, htail, hall⟩ := rdropWhile_append_tail isEol ln
  have h1 : stripTrailing (ln ++ [NUL]) ln.length = .ok (ln.rdropWhile isEol).length := by
    have := stripTrailing_eq ln [NUL] ln.length (le_refl _) (by simpa using hne)
    simpa using this
  -- the part kept splits into its leading blanks and the stripped text
  have hsplit : ln.rdropWhile isEol
      = (ln.rdropWhile isEol).takeWhile isBlank ++ strippedText ln := by
    unfold strippedText
    exact (List.takeWhile_append_dropWhile isBlank _).symm
  have hws : ∀ x ∈ (ln.rdropWhile isEol).takeWhile isBlank, x = SP ∨ x = TAB :=
    fun x hx => (isBlank_iff x).1 (List.mem_takeWhile_imp hx)
  have hbuf : ln ++ [NUL]
      = (ln.rdropWhile isEol).takeWhile isBlank ++ (strippedText ln ++ tail ++ [NUL]) := by
    conv_lhs => rw [htail, hsplit]
    simp [List.append_assoc]
  -- the character the leading loop stops at
  obtain ⟨c, t, hct, hcb⟩ : ∃ c t, strippedText ln ++ tail ++ [NUL] = c :: t ∧
      ¬ (c = SP ∨ c = TAB) := by
    cases hm : strippedText ln with
    | cons c m =>
      refine ⟨c, m ++ tail ++ [NUL], by simp, ?_⟩
      have hh := List.head_dropWhile_not isBlank (ln.rdropWhile isEol)
        (by unfold strippedText at hm; rw [hm]; simp)
      have hhead : (List.dropWhile isBlank (ln.rdropWhile isEol)).head
          (by unfold strippedText at hm; rw [hm]; simp) = c := by
        unfold strippedText at hm
        simp [hm]
      rw [hhead] at hh
      intro hb
      rw [(isBlank_iff c).2 hb] at hh
      exact absurd hh (by simp)
    | nil =>
      cases tail with
      | nil => exact ⟨NUL, [], by simp, NUL_not_blank⟩
      | cons a tl =>
        exact ⟨a, tl ++ [NUL], by simp, not_blank_of_eol (hall a (List.mem_cons_self _ _))⟩
  have hlensum : (ln.rdropWhile isEol).length
      = ((ln.rdropWhile isEol).takeWhile isBlank).length + (strippedText ln).length := by
    conv_lhs => rw [hsplit]
    simp
  have hlenle : ((ln.rdropWhile isEol).takeWhile isBlank).length ≤ (ln.rdropWhile isEol).length := by
    omega
  have hrle : (ln.rdropWhile isEol).length ≤ ln.length :=
    (List.rdropWhile_prefix isEol ln).length_le
  have e31 : (2 : Nat) ^ 31 = 2147483648 := by norm_num
  have e64 : (2 : Nat) ^ 64 = 18446744073709551616 := by norm_num
  have hslen : (strippedText ln).length < 2 ^ 31 := by
    have := sourceLineText_length ln
    unfold INT_MAX at hfit
    rw [e31]
    omega
  obtain ⟨r2, h2, hr2⟩ : ∃ r2, stripLeading (ln ++ [NUL]) (ln.rdropWhile isEol).length
      = .ok (strippedText ln ++ tail ++ [NUL], r2) ∧ r2 % 2 ^ 64 = (strippedText ln).length := by
    obtain ⟨r2, hrun, hmod⟩ := stripLeading_eq _ c t hcb (ln.rdropWhile isEol).length hws
    refine ⟨r2, by rw [hbuf, hct]; exact hrun, ?_⟩
    rw [hmod]
    rw [e31] at hslen
    rw [e64]
    generalize ((ln.rdropWhile isEol).takeWhile isBlank).length = k at hlensum hlenle ⊢
    generalize (ln.rdropWhile isEol).length = n at hlensum hlenle ⊢
    generalize (strippedText ln).length = m at hlensum hslen ⊢
    omega
  have hsnul : NUL ∉ strippedText ln := by
    intro hmem
    apply hnul
    rw [htail, hsplit]
    simp [hmem]
  have hout : "    ".toList
      ++ fmtPrecS (toInt32 r2) (strippedText ln ++ tail ++ [NUL]) ++ [LF]
      = sourceLineText ln := by
    unfold sourceLineText fmtPrecS
    rw [toInt32_of_mod r2 _ hr2 hslen]
    have hnn : ¬ (((strippedText ln).length : Int) < 0) := by omega
    rw [if_neg hnn, Int.toNat_ofNat, List.append_assoc (strippedText ln), List.take_left',
      c_str_eq_self _ hsnul]
    rfl
  unfold printSourceLine
  rw [h1]
  simp only
  rw [h2]
  simp only
  rw [hout, fprintf, if_pos hfit]

/-! ## Chains -/

theorem Heap.at_lt {h : Heap} {a : Addr} {b : Box} (hb : h.at a = some b) :
    0 < a ∧ a ≤ h.length := by
  cases a with
  | zero => simp [Heap.at] at hb
  | succ a =>
    refine ⟨Nat.succ_pos _, ?_⟩
    by_contra hlt
    have hle : h.length ≤ a := Nat.le_of_lt_succ (Nat.lt_of_not_le hlt)
    have : h[a]? = none := List.getElem?_eq_none hle
    simp [Heap.at, this] at hb

/-- What a non-empty chain says about its head. -/
theorem isChain_cons {h : Heap} {a : Addr} {li : LineInfo} {rest : List LineInfo}
    (hc : isChain h a (li :: rest) = true) :
    a ≠ NULL ∧ a ≠ None ∧ ∃ rc next pl,
      h.at a = some ⟨rc, .traceback next li pl⟩ ∧ isChain h next rest = true := by
  unfold isChain at hc
  split at hc
  · rename_i rc next line pl heq
    simp only [Bool.and_eq_true, decide_eq_true_eq] at hc
    obtain ⟨⟨h1, h2⟩, h3⟩ := hc
    refine ⟨?_, h1, rc, next, pl, by rw [heq, h2], h3⟩
    intro h0
    rw [h0] at heq
    simp [NULL, Heap.at] at heq
  · exact absurd hc (by simp)

/-- A chain from an address is determined by the heap. -/
theorem isChain_unique (h : Heap) : ∀ (l1 l2 : List LineInfo) (a : Addr),
    isChain h a l1 = true → isChain h a l2 = true → l1 = l2 := by
  intro l1
  induction l1 with
  | nil =>
    intro l2 a h1 h2
    cases l2 with
    | nil => rfl
    | cons li rest =>
      have ha : a = None := by simpa [isChain] using h1
      exact absurd ha (isChain_cons h2).2.1
  | cons li rest ih =>
    intro l2 a h1 h2
    obtain ⟨_, hn, rc, next, pl, hat, hrest⟩ := isChain_cons h1
    cases l2 with
    | nil =>
      have ha : a = None := by simpa [isChain] using h2
      exact absurd ha hn
    | cons li2 rest2 =>
      obtain ⟨_, _, rc2, next2, pl2, hat2, hrest2⟩ := isChain_cons h2
      rw [hat] at hat2
      injection hat2 with hbox
      injection hbox with _ hobj
      injection hobj with e1 e2 e3
      subst e1 e2
      rw [ih rest2 next hrest hrest2]

/-- The addresses of a chain, unfolded at its head. -/
theorem chainAddrs_cons {h : Heap} {a : Addr} {li : LineInfo} {rest : List LineInfo}
    {rc : Int} {next pl : Addr} (hat : h.at a = some ⟨rc, .traceback next li pl⟩) :
    chainAddrs h a (li :: rest) = a :: chainAddrs h next rest := by
  simp [chainAddrs, hat]

/-- Every address of a chain heads a non-empty final part of it. -/
theorem mem_chainAddrs (h : Heap) : ∀ (nodes : List LineInfo) (a x : Addr),
    isChain h a nodes = true → x ∈ chainAddrs h a nodes →
      ∃ sfx, sfx ≠ [] ∧ sfx <:+ nodes ∧ isChain h x sfx = true := by
  intro nodes
  induction nodes with
  | nil => intro a x _ hx; simp [chainAddrs] at hx
  | cons li rest ih =>
    intro a x hc hx
    obtain ⟨_, _, rc, next, pl, hat, hrest⟩ := isChain_cons hc
    rw [chainAddrs_cons hat] at hx
    rcases List.mem_cons.1 hx with rfl | hx
    · exact ⟨li :: rest, by simp, List.suffix_refl _, hc⟩
    · obtain ⟨sfx, h1, h2, h3⟩ := ih next x hrest hx
      exact ⟨sfx, h1, h2.trans (List.suffix_cons _ _), h3⟩

/-- The nodes of a chain are at distinct addresses inside the heap. -/
theorem chainAddrs_nodup (h : Heap) : ∀ (nodes : List LineInfo) (a : Addr),
    isChain h a nodes = true →
      (chainAddrs h a nodes).Nodup ∧ (chainAddrs h a nodes).length = nodes.length ∧
        ∀ x ∈ chainAddrs h a nodes, 0 < x ∧ x ≤ h.length := by
  intro nodes
  induction nodes with
  | nil => intro a _; simp [chainAddrs]
  | cons li rest ih =>
    intro a hc
    obtain ⟨_, _, rc, next, pl, hat, hrest⟩ := isChain_cons hc
    obtain ⟨hnd, hlen, hbd⟩ := ih next hrest
    rw [chainAddrs_cons hat]
    refine ⟨List.nodup_cons.2 ⟨?_, hnd⟩, by simp [hlen], ?_⟩
    · intro hmem
      obtain ⟨sfx, _, hsfx, hch⟩ := mem_chainAddrs h rest next a hrest hmem
      have := isChain_unique h _ _ a hc hch
      have hl := hsfx.length_le
      rw [← this] at hl
      simp at hl
    · intro x hx
      rcases List.mem_cons.1 hx with rfl | hx
      · exact Heap.at_lt hat
      · exact hbd x hx

/-- A chain has at most as many nodes as the heap has cells. -/
theorem isChain_length_le (h : Heap) (nodes : List LineInfo) (a : Addr)
    (hc : isChain h a nodes = true) : nodes.length ≤ h.length := by
  obtain ⟨hnd, hlen, hbd⟩ := chainAddrs_nodup h nodes a hc
  have hsub : (chainAddrs h a nodes).toFinset ⊆ Finset.Icc 1 h.length := by
    intro x hx
    have := hbd x (List.mem_toFinset.1 hx)
    exact Finset.mem_Icc.2 ⟨this.1, this.2⟩
  have hcard := Finset.card_le_card hsub
  rw [List.toFinset_card_of_nodup hnd, hlen, Nat.card_Icc] at hcard
  omega

/-! ## The loop of `printTraceback` -/

theorem skipLines_nil (k : Nat) : skipLines k [] = [] := by
  induction k with
  | zero => rfl
  | succ k ih => simp [skipLines, getline, ih]

/-- The line read after the skipping loop is the line `nthLine` names. -/
theorem getline_skipLines (k : Nat) : ∀ f : List Char,
    (getline (skipLines k f)).map (fun p => p.1) = nthLine k f := by
  induction k with
  | zero => intro f; rfl
  | succ k ih =>
    intro f
    cases hg : getline f with
    | none =>
      have hf : f = [] := by
        cases f with
        | nil => rfl
        | cons c cs => simp [getline] at hg
      subst hf
      simp [skipLines, nthLine, getline, skipLines_nil]
    | some p =>
      obtain ⟨ln, rest⟩ := p
      simp [skipLines, nthLine, hg, ih rest]

/-- The loop at the end of a chain. -/
theorem printLoop_nil (fs : FS) (h : Heap) (tb : Addr) (hc : isChain h tb [] = true)
    (fuel : Nat) (rep : Report) : printLoop fs h fuel tb rep = .ok rep := by
  have ha : tb = None := by simpa [isChain] using hc
  cases fuel <;> simp [printLoop, ha]

/-- The source line of a frame whose target line is `ln`. -/
theorem printSource_some (fs : FS) (f : List Char) (line : Int) (ln : List Char)
    (hlt : line < 10000000) (hsrc : targetLine fs f line = some ln) :
    printSource fs f line = printSourceLine ln := by
  unfold printSource
  cases hfs : fs (c_str f) with
  | none => simp [targetLine, hfs] at hsrc
  | some content =>
    simp only [targetLine, hfs, Option.some_bind] at hsrc
    have hmap := getline_skipLines (line - 1).toNat content
    rw [hsrc] at hmap
    simp only [if_pos hlt]
    cases hgl : getline (skipLines (line - 1).toNat content) with
    | none => rw [hgl] at hmap; simp at hmap
    | some p =>
      obtain ⟨l, r⟩ := p
      rw [hgl] at hmap
      simp only [Option.map_some', Option.some.injEq] at hmap
      rw [hmap]

/-! ## The source line (C4, C10) -/

/-- C4, as stated, fails: the line `a\0b\n` has length 4, the specification's
source line for it is four spaces, `a\0b` and a newline, and `printTraceback`
prints four spaces, `a` and a newline, because `%.*s` stops at the NUL. -/
theorem C4_counterexample :
    1 ≤ ['a', NUL, 'b', LF].length ∧
    sourceLineText ['a', NUL, 'b', LF] = "    ".toList ++ ['a', NUL, 'b'] ++ [LF] ∧
    printSourceLine ['a', NUL, 'b', LF] = .ok "    a\n".toList ∧
    printSourceLine ['a', NUL, 'b', LF] ≠ .ok (sourceLineText ['a', NUL, 'b', LF]) := by
  decide

/-- C4 (amended): for every line that `getline` returns as the target line, that
has no NUL byte, has a character other than `\n` and `\r` (so its length is at
least 1), and whose source line (four spaces, the stripped text, a newline) is
at most `INT_MAX` bytes, the source line
printed is four spaces, the line with its trailing `\n` and `\r` removed and
then its leading spaces and tabs removed, and a newline. -/
theorem C4_source_line_stripped (ln : List Char) (hnul : NUL ∉ ln)
    (hbody : ∃ c ∈ ln, ¬ (c = LF ∨ c = CR))
    (hfit : ("    ".toList ++ (ln.rdropWhile isEol).dropWhile isBlank ++ [LF]).length ≤ INT_MAX) :
    printSourceLine ln =
      .ok ("    ".toList ++ (ln.rdropWhile isEol).dropWhile isBlank ++ [LF]) :=
  printSourceLine_eq ln hnul hbody hfit

/-- The line `\t\tfoo()\r\n` prints as `    foo()`. -/
theorem C4_source_line_stripped_witness :
    printSourceLine "\t\tfoo()\r\n".toList = .ok "    foo()\n".toList :=
  (C4_source_line_stripped "\t\tfoo()\r\n".toList (by decide)
    ⟨'f', by decide, by decide⟩ (by decide)).trans (by decide)

/-- C10: on the blank line `\n` (`r = 1`, buffer `\n\0`) the trailing loop
removes the `\n`, reaches `r = 0` and evaluates `buf[r - 1]`, a read outside the
buffer; so does it on `\r\n`. -/
theorem C10_blank_line_reads_outside_buffer :
    stripTrailing ([LF] ++ [NUL]) [LF].length = .error .outOfBounds ∧
    printSourceLine [LF] = .error .outOfBounds ∧
    printSourceLine [CR, LF] = .error .outOfBounds := by
  decide

/-! ## `fprintf` and the frames of a chain -/

theorem fprintf_ok {out : List Char} (h : out.length ≤ INT_MAX) : fprintf out = .ok out := by
  rw [fprintf, if_pos h]

theorem fprintf_header : fprintf header = .ok header := by decide

/-- The loop of `printTraceback` on a chain renders the frames of the chain in order. -/
theorem printLoop_eq_renderFrames (fs : FS) (h : Heap) : ∀ (nodes : List LineInfo) (tb : Addr)
    (fuel : Nat) (rep : Report), isChain h tb nodes = true → nodes.length ≤ fuel →
    printLoop fs h fuel tb rep = renderFrames fs h nodes rep := by
  intro nodes
  induction nodes with
  | nil =>
    intro tb fuel rep hc _
    rw [printLoop_nil fs h tb hc]
    rfl
  | cons li rest ih =>
    intro tb fuel rep hc hfuel
    obtain ⟨h0, hn, rc, next, pl, hat, hrest⟩ := isChain_cons hc
    have hstop : ¬ (tb = NULL ∨ tb = None) := fun hh => hh.elim h0 hn
    cases fuel with
    | zero => simp at hfuel
    | succ fuel =>
      have hle : rest.length ≤ fuel := by simpa using hfuel
      rw [printLoop, if_neg hstop, hat]
      simp only [renderFrames]
      cases strAt h li.file with
      | error e => rfl
      | ok f =>
        cases strAt h li.func with
        | error e => rfl
        | ok g =>
          simp only
          cases printFrame fs f li.line g rep with
          | error e => rfl
          | ok rep1 => exact ih next fuel rep1 hrest hle

/-- The report of a chain: the header, then the frames of the chain in order. -/
theorem printTraceback_eq_renderFrames (fs : FS) (h : Heap) (b : Addr) (nodes : List LineInfo)
    (hne : nodes ≠ []) (hc : isChain h b nodes = true) :
    printTraceback fs h b = renderFrames fs h nodes ⟨header, []⟩ := by
  cases nodes with
  | nil => exact absurd rfl hne
  | cons li rest =>
    obtain ⟨_, hn, rc, next, pl, hat, _⟩ := isChain_cons hc
    unfold printTraceback
    rw [if_neg hn, hat]
    simp only [fprintf_header]
    exact printLoop_eq_renderFrames fs h (li :: rest) b h.length ⟨header, []⟩ hc
      (isChain_length_le h _ b hc)

/-- What `renderable` says, unfolded. -/
theorem renderable_spec {fs : FS} {h : Heap} {li : LineInfo} (hr : renderable fs h li = true) :
    ∃ f g ln, strAt h li.file = .ok f ∧ strAt h li.func = .ok g ∧
      (fileLine f li.line g).length ≤ INT_MAX ∧ li.line < 10000000 ∧
      0 ≤ li.line ∧ targetLine fs f li.line = some ln ∧ NUL ∉ ln ∧
      (∃ c ∈ ln, ¬ (c = LF ∨ c = CR)) ∧ (sourceLineText ln).length ≤ INT_MAX := by
  unfold renderable at hr
  simp only [Bool.and_eq_true, decide_eq_true_eq] at hr
  obtain ⟨⟨⟨h1, h2⟩, h3⟩, h4⟩ := hr
  cases hf : strAt h li.file with
  | error e => simp [hf] at h3
  | ok f =>
    cases hg : strAt h li.func with
    | error e => simp [hf, hg] at h3
    | ok g =>
      have hfit : (fileLine f li.line g).length ≤ INT_MAX := by simpa [hf, hg] using h3
      have htext : textAt h li.file = f := by simp [textAt, hf]
      rw [htext] at h4
      cases ht : targetLine fs f li.line with
      | none => simp [ht] at h4
      | some ln =>
        rw [ht] at h4
        simp only [Bool.and_eq_true, decide_eq_true_eq, List.any_eq_true,
          Bool.not_eq_true'] at h4
        obtain ⟨⟨h5, c, hc, hcn⟩, h7⟩ := h4
        refine ⟨f, g, ln, rfl, rfl, hfit, h2, by omega, ht, h5, ⟨c, hc, ?_⟩, h7⟩
        intro hh
        rw [(isEol_iff c).2 hh] at hcn
        exact absurd hcn (by simp)

/-- The frame of a renderable location adds the two expected lines. -/
theorem printFrame_renderable {fs : FS} {h : Heap} {li : LineInfo}
    (hr : renderable fs h li = true) (rep : Report) :
    ∃ f g, strAt h li.file = .ok f ∧ strAt h li.func = .ok g ∧
      printFrame fs f li.line g rep =
        .ok ⟨rep.text ++ expectedFrame fs h li, rep.opened ++ [c_str (textAt h li.file)]⟩ := by
  obtain ⟨f, g, ln, hf, hg, hfit, hlt, hge, ht, hnul, hbody, hsfit⟩ := renderable_spec hr
  refine ⟨f, g, hf, hg, ?_⟩
  have hnn : ¬ li.line < 0 := by omega
  have htf : textAt h li.file = f := by simp [textAt, hf]
  have htg : textAt h li.func = g := by simp [textAt, hg]
  rw [printFrame, fprintf_ok hfit]
  simp only [if_neg hnn, printSource_some fs f li.line ln hlt ht,
    printSourceLine_eq ln hnul hbody hsfit]
  simp [expectedFrame, htf, htg, ht, List.append_assoc]

/-- The frames of a list of renderable locations. -/
theorem renderFrames_renderable (fs : FS) (h : Heap) : ∀ (nodes : List LineInfo) (rep : Report),
    (∀ li ∈ nodes, renderable fs h li = true) →
    renderFrames fs h nodes rep =
      .ok ⟨rep.text ++ (nodes.map (expectedFrame fs h)).flatten,
        rep.opened ++ nodes.map (fun li => c_str (textAt h li.file))⟩ := by
  intro nodes
  induction nodes with
  | nil => intro rep _; simp [renderFrames]
  | cons li rest ih =>
    intro rep hall
    obtain ⟨f, g, hf, hg, hframe⟩ := printFrame_renderable (hall li (List.mem_cons_self _ _)) rep
    simp only [renderFrames, hf, hg, hframe]
    rw [ih _ (fun x hx => hall x (List.mem_cons_of_mem _ hx))]
    simp [List.append_assoc]

/-- C3, as stated, fails: the one frame of the chain of `nulHeap` has line 1
and names `nul.py`, which opens and has a line 1, the text `a\0b`; the report
expected is the header, the `File` line and four spaces with `a\0b`, and the
report written has four spaces with `a`. -/
theorem C3_counterexample :
    isChain nulHeap 4 [⟨1, 2, 3⟩] = true ∧
    sampleFS (c_str "nul.py".toList) = some ['a', NUL, 'b', LF] ∧
    targetLine sampleFS "nul.py".toList 1 = some ['a', NUL, 'b', LF] ∧
    header ++ expectedFrame sampleFS nulHeap ⟨1, 2, 3⟩ =
      header ++ "  File \"nul.py\", line 1, in f\n".toList ++ "    ".toList
        ++ ['a', NUL, 'b', LF] ∧
    (printTraceback sampleFS nulHeap 4).map (fun r => r.text) =
      .ok (header ++ "  File \"nul.py\", line 1, in f\n".toList ++ "    a\n".toList) ∧
    (printTraceback sampleFS nulHeap 4).map (fun r => r.text) ≠
      .ok (header ++ expectedFrame sampleFS nulHeap ⟨1, 2, 3⟩) := by
  decide

/-- C3 (amended): for every non-empty chain in which each frame has
`1 <= line < 10,000,000`, has a `File` line of at most `INT_MAX` bytes, names a
file that opens and has at least `line` lines, and has a target line without
NUL byte, with a character other than `\n` and `\r` and with a source line of
at most `INT_MAX` bytes, `printTraceback`
writes exactly the header and then, for each node from head to tail, the `File`
line followed by four spaces and the stripped text of the target line; and it
opens exactly the files of the nodes, in this order. -/
theorem C3_report_of_chain (fs : FS) (h : Heap) (b : Addr) (nodes : List LineInfo)
    (hne : nodes ≠ []) (hc : isChain h b nodes = true)
    (hall : nodes.all (renderable fs h) = true) :
    printTraceback fs h b =
      .ok ⟨header ++ (nodes.map (expectedFrame fs h)).flatten,
        nodes.map (fun li => c_str (textAt h li.file))⟩ := by
  rw [printTraceback_eq_renderFrames fs h b nodes hne hc,
    renderFrames_renderable fs h nodes _ (fun x hx => List.all_eq_true.1 hall x hx)]
  simp

/-- The three frames `(a.py, f, 10)`, `(a.py, g, 20)`, `(a.py, h, 30)` prepended
in this order render as the header, `h`/30/`z=3`, `g`/20/`y=2`, `f`/10/`x=1`. -/
theorem C3_report_of_chain_witness :
    printTraceback sampleFS sampleHeap 8 =
      .ok ⟨("Traceback (most recent call last):\n" ++
            "  File \"a.py\", line 30, in h\n    z=3\n" ++
            "  File \"a.py\", line 20, in g\n    y=2\n" ++
            "  File \"a.py\", line 10, in f\n    x=1\n").toList,
          ["a.py".toList, "a.py".toList, "a.py".toList]⟩ :=
  (C3_report_of_chain sampleFS sampleHeap 8 [⟨30, 2, 5⟩, ⟨20, 2, 4⟩, ⟨10, 2, 3⟩]
    (by simp) (by decide) (by decide)).trans (by decide)

/-! ## `BoxedTraceback.traverse` (C9) -/

/-- One `Py_VISIT` with a recording callback that returns `0` on the object. -/
theorem Py_VISIT_logging_zero {σ : Type} (visit : Addr → σ → Int × σ) (op : Addr)
    (calls : List Addr) (s : σ) (hz : op ≠ NULL → (visit op s).1 = 0) :
    Py_VISIT (logging visit) op (calls, s) =
      (none, (calls ++ [op].filter (fun p => p ≠ NULL), visitAll visit ([op].filter (fun p => p ≠ NULL)) s)) := by
  by_cases h0 : op = NULL
  · simp [Py_VISIT, h0, visitAll]
  · simp [Py_VISIT, h0, logging, hz h0, visitAll]

/-- C9, as stated, fails: with a callback that returns `1`, `BoxedTraceback.traverse` on the
head of `sampleHeap` (which owns `tb_next = 7`, `file = 2`, `func = 5`) calls it
on `tb_next` only and returns `1`, by the early return of `Py_VISIT`. -/
theorem C9_counterexample :
    ownedRefs sampleHeap 8 = [7, 2, 5] ∧
    BoxedTraceback.traverse sampleHeap 8 (logging (fun (_ : Addr) (s : Unit) => ((1 : Int), s))) ([], ()) =
      .ok (1, ([7], ())) := by
  decide

/-- C9 (amended): for every traceback node and every visit callback that
returns `0` on the references the node owns, `BoxedTraceback.traverse` calls visit exactly
once on each of them, in the order `tb_next`, `py_lines` (when present),
`line.file`, `line.func`, on nothing else, and returns `0`; it reads the node
and writes nothing. -/
theorem C9_traverse_visits_owned {σ : Type} (h : Heap) (self : Addr) (rc : Int)
    (tb_next py_lines : Addr) (line : LineInfo) (visit : Addr → σ → Int × σ) (arg : σ)
    (hself : h.at self = some ⟨rc, .traceback tb_next line py_lines⟩)
    (hzero : ∀ op ∈ ownedRefs h self, ∀ s, (visit op s).1 = 0) :
    BoxedTraceback.traverse h self (logging visit) ([], arg) =
      .ok (0, (ownedRefs h self, visitAll visit (ownedRefs h self) arg)) := by
  have hown : ownedRefs h self
      = [tb_next, py_lines, line.file, line.func].filter (fun p => p ≠ NULL) := by
    simp [ownedRefs, hself]
  rw [hown] at hzero ⊢
  have hz : ∀ op ∈ [tb_next, py_lines, line.file, line.func], ∀ s,
      op ≠ NULL → (visit op s).1 = 0 := by
    intro op hop s hne
    exact hzero op (List.mem_filter.2 ⟨hop, by simpa using hne⟩) s
  unfold BoxedTraceback.traverse
  rw [hself]
  simp only
  rw [Py_VISIT_logging_zero visit tb_next [] arg (hz tb_next (by simp) arg)]
  simp only
  rw [Py_VISIT_logging_zero visit py_lines _ _ (hz py_lines (by simp) _)]
  simp only
  rw [Py_VISIT_logging_zero visit line.file _ _ (hz line.file (by simp) _)]
  simp only
  rw [Py_VISIT_logging_zero visit line.func _ _ (hz line.func (by simp) _)]
  simp only [visitAll, List.nil_append, List.append_assoc, ← List.filter_append,
    ← List.foldl_append, List.singleton_append]
  rfl

/-- On the head of `sampleHeap`, a callback that counts its calls and returns
`0` is called on `7`, `2` and `5`, three times in all. -/
theorem C9_traverse_visits_owned_witness :
    BoxedTraceback.traverse sampleHeap 8 (logging (fun (_ : Addr) (n : Nat) => ((0 : Int), n + 1))) ([], 0) =
      .ok (0, ([7, 2, 5], 3)) :=
  (C9_traverse_visits_owned sampleHeap 8 1 7 0 ⟨30, 2, 5⟩
    (fun (_ : Addr) (n : Nat) => ((0 : Int), n + 1)) 0 (by decide)
    (fun _ _ _ => rfl)).trans (by decide)

/-! ## The heap -/

theorem Heap.at_zero (h : Heap) : h.at 0 = none := rfl

theorem Heap.at_append_left {h : Heap} {a : Addr} {x : Box} (ext : Heap)
    (hx : h.at a = some x) : Heap.at (h ++ ext) a = some x := by
  have hlt := Heap.at_lt hx
  cases a with
  | zero => simp [Heap.at] at hx
  | succ a =>
    have : a < h.length := hlt.2
    simp only [Heap.at] at hx ⊢
    rw [List.getElem?_append_left this]
    exact hx

theorem Heap.at_alloc_new (h : Heap) (o : Obj) :
    (alloc h o).1.at (alloc h o).2 = some ⟨1, o⟩ := by
  simp [alloc, Heap.at]

theorem Heap.at_alloc_old {h : Heap} {a : Addr} {x : Box} (o : Obj) (hx : h.at a = some x) :
    (alloc h o).1.at a = some x :=
  Heap.at_append_left _ hx

theorem Heap.length_put (h : Heap) (a : Addr) (v : Option Box) :
    (h.put a v).length = h.length := by
  cases a <;> simp [Heap.put]

theorem Heap.at_put_same {h : Heap} {a : Addr} (v : Option Box) (h0 : 0 < a)
    (hle : a ≤ h.length) : (h.put a v).at a = v := by
  cases a with
  | zero => exact absurd h0 (by simp)
  | succ a =>
    have : a < h.length := hle
    simp [Heap.at, Heap.put, List.getElem?_set_self, this]

theorem Heap.at_put_ne (h : Heap) {a b : Addr} (v : Option Box) (hne : a ≠ b) :
    (h.put a v).at b = h.at b := by
  cases a with
  | zero => rfl
  | succ a =>
    cases b with
    | zero => rfl
    | succ b =>
      have : a ≠ b := fun e => hne (by rw [e])
      simp [Heap.at, Heap.put, List.getElem?_set_ne this]

/-- Writing back what a cell holds changes nothing. -/
theorem Heap.put_at_self {h : Heap} {a : Addr} {x : Box} (hx : h.at a = some x) :
    h.put a (some x) = h := by
  have hlt := Heap.at_lt hx
  cases a with
  | zero => rfl
  | succ a =>
    have hlt2 : a < h.length := hlt.2
    simp only [Heap.at] at hx
    simp only [Heap.put]
    apply List.ext_getElem?
    intro i
    by_cases hi : a = i
    · subst hi
      rw [List.getElem?_set_self hlt2]
      rw [List.getElem?_eq_getElem hlt2] at hx ⊢
      simp only [Option.join] at hx
      cases hv : h[a] with
      | none => rw [hv] at hx; simp at hx
      | some y => rw [hv] at hx; simp at hx; rw [hx]
    · rw [List.getElem?_set_ne hi]

theorem Heap.put_put (h : Heap) (a : Addr) (v w : Option Box) :
    (h.put a v).put a w = h.put a w := by
  cases a with
  | zero => rfl
  | succ a => simp [Heap.put, List.set_set]

theorem Heap.put_append_left {h : Heap} {a : Addr} (v : Option Box) (ext : Heap)
    (h0 : 0 < a) (hle : a ≤ h.length) : Heap.put (h ++ ext) a v = h.put a v ++ ext := by
  cases a with
  | zero => exact absurd h0 (by simp)
  | succ a =>
    have : a < h.length := hle
    simp [Heap.put, List.set_append_left _ _ this]

/-! ## The cache of `BoxedTraceback.getLines` (C2) -/

/-- A call on a node whose cache is set returns the cache and leaves the heap as it is. -/
theorem getLines_cached {h : Heap} {b : Addr} {rc : Int} {next pl : Addr} {line : LineInfo}
    (hat : h.at b = some ⟨rc, .traceback next line pl⟩) (hpl : pl ≠ NULL) :
    BoxedTraceback.getLines h b = .ok (h, pl) := by
  unfold BoxedTraceback.getLines
  rw [hat]
  simp only [if_neg hpl]

/-- After a call that returns, the node's cache is the pointer returned, and it is not `NULL`. -/
theorem getLines_sets_cache {h h1 : Heap} {b r : Addr} (hfirst : BoxedTraceback.getLines h b = .ok (h1, r)) :
    r ≠ NULL ∧ ∃ rc next line, h1.at b = some ⟨rc, .traceback next line r⟩ := by
  unfold BoxedTraceback.getLines at hfirst
  split at hfirst
  · rename_i rc next line pl hat
    by_cases hpl : pl = NULL
    · rw [if_pos hpl] at hfirst
      simp only [buildLines] at hfirst
      split at hfirst
      · exact absurd hfirst (by simp)
      · rename_i h2 hloop
        split at hfirst
        · exact absurd hfirst (by simp)
        · rename_i h3 hset
          simp only [Except.ok.injEq, Prod.mk.injEq] at hfirst
          obtain ⟨e1, e2⟩ := hfirst
          subst e1
          refine ⟨by rw [← e2]; simp [alloc, NULL], ?_⟩
          unfold setPyLines at hset
          split at hset
          · rename_i rc2 next2 line2 pl2 hat2
            simp only [Except.ok.injEq] at hset
            have hlt := Heap.at_lt hat2
            refine ⟨rc2, next2, line2, ?_⟩
            rw [← hset, Heap.at_put_same _ hlt.1 hlt.2, e2]
          · exact absurd hset (by simp)
    · rw [if_neg hpl] at hfirst
      simp only [Except.ok.injEq, Prod.mk.injEq] at hfirst
      obtain ⟨e1, e2⟩ := hfirst
      subst e1 e2
      exact ⟨hpl, rc, next, line, hat⟩
  · exact absurd hfirst (by simp)
  · exact absurd hfirst (by simp)

/-- Calls on a node whose cache is set all return the cache and change nothing. -/
theorem getLinesTimes_cached {h : Heap} {b : Addr} {rc : Int} {next pl : Addr} {line : LineInfo}
    (hat : h.at b = some ⟨rc, .traceback next line pl⟩) (hpl : pl ≠ NULL) (k : Nat) :
    getLinesTimes k h b = .ok (h, List.replicate k pl) := by
  induction k with
  | zero => rfl
  | succ k ih => simp [getLinesTimes, getLines_cached hat hpl, ih, List.replicate_succ]

/-- C2: for every traceback node, cached or not, whose first call of `BoxedTraceback.getLines`
returns the pointer `r` and leaves the heap `h1`: the node's `py_lines` is then
`r`, not `NULL`; a further call returns the same pointer `r` and leaves the
whole heap, the node included, as it is; and so do any `k` further calls. -/
theorem C2_getLines_identity_stable (h h1 : Heap) (b r : Addr)
    (hfirst : BoxedTraceback.getLines h b = .ok (h1, r)) :
    r ≠ NULL ∧ (∃ rc next line, h1.at b = some ⟨rc, .traceback next line r⟩) ∧
      BoxedTraceback.getLines h1 b = .ok (h1, r) ∧
      ∀ k, getLinesTimes (k + 1) h b = .ok (h1, List.replicate (k + 1) r) := by
  obtain ⟨hr, rc, next, line, hat⟩ := getLines_sets_cache hfirst
  refine ⟨hr, ⟨rc, next, line, hat⟩, getLines_cached hat hr, ?_⟩
  intro k
  simp [getLinesTimes, hfirst, getLinesTimes_cached hat hr k, List.replicate_succ]

/-- On the head of `sampleHeap` the first call builds the list at address `9`
and gives `cachedHeap`, and three calls in a row return `9` each time. -/
theorem C2_getLines_identity_stable_witness :
    getLinesTimes 3 sampleHeap 8 = .ok (cachedHeap, [9, 9, 9]) :=
  (C2_getLines_identity_stable sampleHeap cachedHeap 8 9 (by decide)).2.2.2 2

/-! ## The loop of `BoxedTraceback.getLines` -/

theorem keepsExcept_refl (L : Addr) (h : Heap) : keepsExcept L h h :=
  fun _ _ _ hx => hx

theorem keepsExcept_trans {L : Addr} {h1 h2 h3 : Heap} (h12 : keepsExcept L h1 h2)
    (h23 : keepsExcept L h2 h3) : keepsExcept L h1 h3 :=
  fun a x hne hx => h23 a x hne (h12 a x hne hx)

theorem keepsExcept_alloc (L : Addr) (h : Heap) (o : Obj) : keepsExcept L h (alloc h o).1 :=
  fun _ _ _ hx => Heap.at_alloc_old o hx

theorem keepsExcept_put (L : Addr) (h : Heap) (v : Option Box) : keepsExcept L h (h.put L v) :=
  fun a x hne hx => by rw [Heap.at_put_ne h v (Ne.symm hne)]; exact hx

theorem isRecord_mono {L : Addr} {h1 h2 : Heap} (hk : keepsExcept L h1 h2) {e : Addr}
    {r : Addr × Addr × Int} (hr : isRecord L h1 e r) : isRecord L h2 e r := by
  obtain ⟨he, rc1, rc2, n, hn, h1e, h1n⟩ := hr
  exact ⟨he, rc1, rc2, n, hn, hk _ _ he h1e, hk _ _ hn h1n⟩

/-- An address past the end of the heap holds nothing. -/
theorem Heap.at_fresh (h : Heap) : h.at (h.length + 1) = none := by
  simp [Heap.at]

/-- The loop of `BoxedTraceback.getLines` over a chain: it ends, keeps the objects that were
there, and adds the records of the chain to the list at `L`, in chain order. -/
theorem getLinesLoop_chain (h0 : Heap) (L : Addr) (hL : h0.at L = none) :
    ∀ (nodes : List LineInfo) (wtb : Addr) (fuel : Nat) (hcur : Heap) (es : List Addr)
      (recs : List (Addr × Addr × Int)) (rcL : Int),
      isChain h0 wtb nodes = true → nodes.length ≤ fuel → keepsExcept L h0 hcur →
      hcur.at L = some ⟨rcL, .list es⟩ → List.Forall₂ (isRecord L hcur) es recs →
      ∃ h2 es2, getLinesLoop L fuel hcur wtb = .ok h2 ∧ keepsExcept L h0 h2 ∧
        h2.at L = some ⟨rcL, .list es2⟩ ∧
        List.Forall₂ (isRecord L h2) es2 (recs ++ nodes.map LineInfo.record) := by
  intro nodes
  induction nodes with
  | nil =>
    intro wtb fuel hcur es recs rcL hc _ hk hat hrec
    have ha : wtb = None := by simpa [isChain] using hc
    refine ⟨hcur, es, ?_, hk, hat, by simpa using hrec⟩
    cases fuel <;> simp [getLinesLoop, ha]
  | cons li rest ih =>
    intro wtb fuel hcur es recs rcL hc hfuel hk hat hrec
    obtain ⟨h0n, hnn, rc, next, pl, hnode, hrest⟩ := isChain_cons hc
    have hwL : wtb ≠ L := by
      intro e
      rw [e, hL] at hnode
      exact absurd hnode (by simp)
    have hnode2 : hcur.at wtb = some ⟨rc, .traceback next li pl⟩ := hk _ _ hwL hnode
    have hLlt := Heap.at_lt hat
    cases fuel with
    | zero => simp at hfuel
    | succ fuel =>
      have hstop : ¬ (wtb = NULL ∨ wtb = None) := fun hh => hh.elim h0n hnn
      -- the heap after `boxInt` and `BoxedTuple::create`
      have hk2 : keepsExcept L hcur
          (alloc (alloc hcur (.int li.line)).1
            (.tuple [li.file, li.func, (alloc hcur (.int li.line)).2])).1 :=
        keepsExcept_trans (keepsExcept_alloc L _ _) (keepsExcept_alloc L _ _)
      have hatL2 : (alloc (alloc hcur (.int li.line)).1
          (.tuple [li.file, li.func, (alloc hcur (.int li.line)).2])).1.at L
            = some ⟨rcL, .list es⟩ :=
        Heap.at_alloc_old _ (Heap.at_alloc_old _ hat)
      have hLlt2 := Heap.at_lt hatL2
      have hLle : L ≤ hcur.length := hLlt.2
      have hnL : (alloc hcur (.int li.line)).2 ≠ L := by
        simp only [alloc]
        unfold Addr at *
        omega
      have htL : (alloc (alloc hcur (.int li.line)).1
          (.tuple [li.file, li.func, (alloc hcur (.int li.line)).2])).2 ≠ L := by
        simp only [alloc, List.length_append, List.length_singleton]
        unfold Addr at *
        omega
      rw [getLinesLoop, if_neg hstop, hnode2]
      simp only [appendLine, boxInt, BoxedTuple_create, listAppendInternal, hatL2]
      have hk3 := keepsExcept_trans hk2 (keepsExcept_put L
        (alloc (alloc hcur (.int li.line)).1
          (.tuple [li.file, li.func, (alloc hcur (.int li.line)).2])).1
        (some ⟨rcL, .list (es ++ [(alloc (alloc hcur (.int li.line)).1
          (.tuple [li.file, li.func, (alloc hcur (.int li.line)).2])).2])⟩))
      have hnew : isRecord L
          ((alloc (alloc hcur (.int li.line)).1
            (.tuple [li.file, li.func, (alloc hcur (.int li.line)).2])).1.put L
              (some ⟨rcL, .list (es ++ [(alloc (alloc hcur (.int li.line)).1
                (.tuple [li.file, li.func, (alloc hcur (.int li.line)).2])).2])⟩))
          (alloc (alloc hcur (.int li.line)).1
            (.tuple [li.file, li.func, (alloc hcur (.int li.line)).2])).2 li.record := by
        refine ⟨htL, 1, 1, (alloc hcur (.int li.line)).2, hnL, ?_, ?_⟩
        · rw [Heap.at_put_ne _ _ (Ne.symm htL)]
          exact Heap.at_alloc_new _ _
        · rw [Heap.at_put_ne _ _ (Ne.symm hnL)]
          exact Heap.at_alloc_old _ (Heap.at_alloc_new _ _)
      have hrec3 := List.rel_append (hrec.imp (fun _ _ hr => isRecord_mono hk3 hr))
        (List.Forall₂.cons hnew List.Forall₂.nil)
      obtain ⟨h2, es2, hrun, hkeep, hat2, hrec2⟩ := ih next fuel _ _ _ rcL hrest
        (by simpa using hfuel) (keepsExcept_trans hk hk3)
        (Heap.at_put_same _ hLlt2.1 hLlt2.2) hrec3
      exact ⟨h2, es2, hrun, hkeep, hat2, by simpa [List.append_assoc] using hrec2⟩

theorem recordsOf_of_isRecord {L : Addr} {h : Heap} {es : List Addr}
    {recs : List (Addr × Addr × Int)} (hrec : List.Forall₂ (isRecord L h) es recs) :
    recordsOf h es = some recs := by
  induction hrec with
  | nil => rfl
  | cons hr _ ih =>
    obtain ⟨_, rc1, rc2, n, _, he, hn⟩ := hr
    simp [recordsOf, recordAt, he, hn, ih]

/-- Setting a field of a traceback node changes no record. -/
theorem isRecord_put_node {L : Addr} {h : Heap} {b : Addr} {rc : Int} {next pl : Addr}
    {li : LineInfo} (hb : h.at b = some ⟨rc, .traceback next li pl⟩) (v : Option Box)
    {e : Addr} {r : Addr × Addr × Int} (hr : isRecord L h e r) : isRecord L (h.put b v) e r := by
  obtain ⟨he, rc1, rc2, n, hn, h1e, h1n⟩ := hr
  have hbe : b ≠ e := by
    intro e1
    rw [e1, h1e] at hb
    simp at hb
  have hbn : b ≠ n := by
    intro e1
    rw [e1, h1n] at hb
    simp at hb
  exact ⟨he, rc1, rc2, n, hn, by rw [Heap.at_put_ne _ _ hbe]; exact h1e,
    by rw [Heap.at_put_ne _ _ hbn]; exact h1n⟩

/-- The method `BoxedTraceback.getLines` on the head of a chain whose cache is empty returns
a list of the records of the chain, head first. -/
theorem getLines_chain (h : Heap) (b : Addr) (nodes : List LineInfo) (rc : Int) (next : Addr)
    (li : LineInfo) (hc : isChain h b nodes = true)
    (hat : h.at b = some ⟨rc, .traceback next li NULL⟩) :
    ∃ h2 lines, BoxedTraceback.getLines h b = .ok (h2, lines) ∧
      recordsAt h2 lines = some (nodes.map LineInfo.record) := by
  have hL : h.at (alloc h (.list [])).2 = none := Heap.at_fresh h
  have hbL : b ≠ (alloc h (.list [])).2 := by
    intro e
    rw [← e, hat] at hL
    simp at hL
  obtain ⟨h2, es2, hrun, hkeep, hat2, hrec2⟩ :=
    getLinesLoop_chain h (alloc h (.list [])).2 hL nodes b h.length (alloc h (.list [])).1 [] []
      1 hc (isChain_length_le h nodes b hc) (keepsExcept_alloc _ h _)
      (Heap.at_alloc_new h _) List.Forall₂.nil
  have hb2 : h2.at b = some ⟨rc, .traceback next li NULL⟩ := hkeep _ _ hbL hat
  refine ⟨h2.put b (some ⟨rc, .traceback next li (alloc h (.list [])).2⟩),
    (alloc h (.list [])).2, ?_, ?_⟩
  · unfold BoxedTraceback.getLines
    rw [hat]
    simp only [if_true, buildLines, hrun, setPyLines, hb2]
  · unfold recordsAt
    rw [Heap.at_put_ne _ _ hbL, hat2]
    simp only
    have := hrec2.imp (fun _ _ hr => isRecord_put_node hb2
      (some ⟨rc, .traceback next li (alloc h (.list [])).2⟩) hr)
    simpa using recordsOf_of_isRecord this

/-! ## `BoxedTraceback.here` (C7) -/

/-- The effect of `BoxedTraceback.here` when the previous head stays alive. -/
theorem here_eq (increfNext : Bool) (rt : Runtime) (li : LineInfo) (slot : Addr) (rc : Int)
    (o : Obj) (hs : rt.heap.at slot = some ⟨rc, o⟩)
    (hlive : rc + ctorIncrement increfNext - 1 ≠ 0) :
    BoxedTraceback.here increfNext rt li slot =
      .ok (⟨rt.heap.put slot (some ⟨rc + ctorIncrement increfNext - 1, o⟩)
              ++ [some ⟨1, .traceback slot li NULL⟩], rt.deallocs⟩, rt.heap.length + 1) := by
  have hlt := Heap.at_lt hs
  cases increfNext with
  | true =>
    have hlive2 : ¬ (rc + 1 - 1 = 0) := by simpa [ctorIncrement] using hlive
    have hat1 : Heap.at (rt.heap.put slot (some ⟨rc + 1, o⟩) ++ [some ⟨1, .traceback slot li NULL⟩])
        slot = some ⟨rc + 1, o⟩ :=
      Heap.at_append_left _ (Heap.at_put_same _ hlt.1 hlt.2)
    have hlen : slot ≤ (rt.heap.put slot (some ⟨rc + 1, o⟩)).length := by
      rw [Heap.length_put]; exact hlt.2
    simp only [BoxedTraceback.here, newBoxedTraceback, Py_INCREF, hs, if_true, alloc, Py_DECREF, decref, hat1,
      if_neg hlive2, ctorIncrement]
    rw [Heap.put_append_left _ _ hlt.1 hlen, Heap.put_put, Heap.length_put]
  | false =>
    have hlive2 : ¬ (rc - 1 = 0) := by simpa [ctorIncrement] using hlive
    have hat1 : Heap.at (rt.heap ++ [some ⟨1, .traceback slot li NULL⟩]) slot = some ⟨rc, o⟩ :=
      Heap.at_append_left _ hs
    simp only [BoxedTraceback.here, newBoxedTraceback, Bool.false_eq_true, if_false, alloc, Py_DECREF, decref,
      hat1, if_neg hlive2, ctorIncrement]
    rw [Heap.put_append_left _ _ hlt.1 hlt.2]
    simp

/-- C7, as stated, fails: with a constructor that takes over the reference
without incrementing it, `BoxedTraceback.here` on a slot that holds `None` (count 10) leaves
`None` with count 9; and on a slot that holds the only reference to the head of
`sampleHeap` it destroys the whole previous chain. -/
theorem C7_counterexample :
    baseHeap.at None = some ⟨10, .none⟩ ∧
    (BoxedTraceback.here specCtorIncrefsNext ⟨baseHeap, []⟩ ⟨10, 2, 3⟩ None).map
        (fun r => (r.1.heap.at None, r.2)) = .ok (some ⟨9, .none⟩, 6) ∧
    (BoxedTraceback.here specCtorIncrefsNext ⟨sampleHeap, []⟩ ⟨40, 2, 3⟩ 8).map
        (fun r => (r.1.deallocs, r.1.heap.at 8)) = .ok ([8, 7, 6], none) := by
  decide

/-- C7 (amended): for every location and every slot that holds a live object
(a chain head or `None`) with count `rc`, whose count stays above zero, after
`BoxedTraceback.here` the slot holds a newly constructed node, with the given location, with
`tb_next` the slot's previous value, an empty cache and one reference, the
slot's; the count of the previous head is `rc`, plus what the constructor adds
to it, minus the one that `Py_DECREF(old_tb)` takes; every other object is as
before and no destructor has run. The count is unchanged when the constructor
runs `Py_INCREF(tb_next)`, and one lower when it does not. -/
theorem C7_here_prepends (increfNext : Bool) (rt : Runtime) (li : LineInfo) (slot : Addr)
    (rc : Int) (o : Obj) (hs : rt.heap.at slot = some ⟨rc, o⟩)
    (hlive : rc + ctorIncrement increfNext - 1 ≠ 0) :
    ∃ rt2 tb, BoxedTraceback.here increfNext rt li slot = .ok (rt2, tb) ∧
      rt.heap.at tb = none ∧
      rt2.heap.at tb = some ⟨1, .traceback slot li NULL⟩ ∧
      rt2.heap.at slot = some ⟨rc + ctorIncrement increfNext - 1, o⟩ ∧
      (∀ a, a ≠ slot → a ≠ tb → rt2.heap.at a = rt.heap.at a) ∧
      rt2.deallocs = rt.deallocs := by
  have hlt := Heap.at_lt hs
  refine ⟨_, _, here_eq increfNext rt li slot rc o hs hlive, Heap.at_fresh _, ?_, ?_, ?_, rfl⟩
  · have := Heap.at_alloc_new
      (rt.heap.put slot (some ⟨rc + ctorIncrement increfNext - 1, o⟩)) (.traceback slot li NULL)
    simpa [alloc, Heap.length_put] using this
  · exact Heap.at_append_left _ (Heap.at_put_same _ hlt.1 hlt.2)
  · intro a ha hb
    show Heap.at (_ ++ _) a = _
    cases a with
    | zero => rfl
    | succ a =>
      have hne : a ≠ rt.heap.length := fun e => hb (by rw [e])
      by_cases hlt2 : a < rt.heap.length
      · have h1 : a < (rt.heap.put slot (some ⟨rc + ctorIncrement increfNext - 1, o⟩)).length := by
          rw [Heap.length_put]; exact hlt2
        have := Heap.at_put_ne rt.heap (some ⟨rc + ctorIncrement increfNext - 1, o⟩) (Ne.symm ha)
        simp only [Heap.at] at this ⊢
        rw [List.getElem?_append_left h1, this]
      · have h1 : rt.heap.length + 1 ≤ a := by omega
        have h2 : rt.heap[a]? = none := List.getElem?_eq_none (by omega)
        have h3 : (rt.heap.put slot (some ⟨rc + ctorIncrement increfNext - 1, o⟩)
            ++ [some ⟨1, .traceback slot li NULL⟩])[a]? = none :=
          List.getElem?_eq_none (by simp [Heap.length_put]; omega)
        simp only [Heap.at, h2, h3]

/-- With the constructor that increments `tb_next`, `BoxedTraceback.here` on `baseHeap` puts
the new node at `6` and leaves the count of `None` at 10. -/
theorem C7_here_prepends_witness :
    ∃ rt2 tb, BoxedTraceback.here true ⟨baseHeap, []⟩ ⟨10, 2, 3⟩ None = .ok (rt2, tb) ∧
      baseHeap.at tb = none ∧
      rt2.heap.at tb = some ⟨1, .traceback None ⟨10, 2, 3⟩ NULL⟩ ∧
      rt2.heap.at None = some ⟨10 + ctorIncrement true - 1, .none⟩ ∧
      (∀ a, a ≠ None → a ≠ tb → rt2.heap.at a = baseHeap.at a) ∧
      rt2.deallocs = [] :=
  C7_here_prepends true ⟨baseHeap, []⟩ ⟨10, 2, 3⟩ None 10 .none (by decide) (by decide)

/-! ## Chains built by `BoxedTraceback.here` (C1) -/

theorem ownsChain_append {h : Heap} (ext : Heap) : ∀ (cells : List (Addr × LineInfo)) (a : Addr),
    ownsChain h a cells → ownsChain (h ++ ext) a cells := by
  intro cells
  induction cells with
  | nil => intro a hc; exact hc
  | cons c rest ih =>
    intro a hc
    obtain ⟨h1, h2, next, hat, hrest⟩ := hc
    exact ⟨h1, h2, next, Heap.at_append_left _ hat, ih next hrest⟩

/-- A chain of `ownsChain` is a chain of `isChain`, with the same addresses. -/
theorem ownsChain_isChain {h : Heap} : ∀ (cells : List (Addr × LineInfo)) (a : Addr),
    ownsChain h a cells →
      isChain h a (cells.map Prod.snd) = true ∧
        chainAddrs h a (cells.map Prod.snd) = cells.map Prod.fst := by
  intro cells
  induction cells with
  | nil => intro a hc; exact ⟨by simpa [isChain, ownsChain] using hc, rfl⟩
  | cons c rest ih =>
    intro a hc
    obtain ⟨h1, h2, next, hat, hrest⟩ := hc
    obtain ⟨ih1, ih2⟩ := ih next hrest
    refine ⟨?_, ?_⟩
    · simp [isChain, hat, h2, ih1]
    · rw [List.map_cons, chainAddrs_cons hat, ih2, h1]
      rfl

/-- The live object a slot holds: `None`, or the head of a chain, with one reference. -/
theorem ownsChain_head {h : Heap} {a : Addr} {cells : List (Addr × LineInfo)} {rcN : Int}
    (hc : ownsChain h a cells) (hnone : h.at None = some ⟨rcN, .none⟩) (hrc : rcN ≠ 0) :
    ∃ rc o, h.at a = some ⟨rc, o⟩ ∧ rc ≠ 0 := by
  cases cells with
  | nil =>
    have ha : a = None := hc
    exact ⟨rcN, .none, by rw [ha]; exact hnone, hrc⟩
  | cons c rest =>
    obtain ⟨_, _, next, hat, _⟩ := hc
    exact ⟨1, _, hat, by decide⟩

/-- One `BoxedTraceback.here` with the incrementing constructor appends the new node and
changes nothing else. -/
theorem here_true_eq (rt : Runtime) (li : LineInfo) (slot : Addr) (rc : Int) (o : Obj)
    (hs : rt.heap.at slot = some ⟨rc, o⟩) (hrc : rc ≠ 0) :
    BoxedTraceback.here true rt li slot =
      .ok (⟨rt.heap ++ [some ⟨1, .traceback slot li NULL⟩], rt.deallocs⟩, rt.heap.length + 1) := by
  have e : rc + ctorIncrement true - 1 = rc := by simp [ctorIncrement]
  rw [here_eq true rt li slot rc o hs (by rw [e]; exact hrc), e, Heap.put_at_self hs]

/-- The calls of `BoxedTraceback.here` for the locations `ls` on a slot that holds a chain
build the chain of the new nodes on top of it, newest first. -/
theorem hereAll_true_chain : ∀ (ls : List LineInfo) (rt : Runtime) (slot : Addr)
    (cells : List (Addr × LineInfo)) (rcN : Int), ownsChain rt.heap slot cells →
    rt.heap.at None = some ⟨rcN, .none⟩ → rcN ≠ 0 →
    ∃ rt1 head cells1, hereAll true rt slot ls = .ok (rt1, head) ∧
      ownsChain rt1.heap head (cells1 ++ cells) ∧ cells1.map Prod.snd = ls.reverse ∧
      (∃ ext, rt1.heap = rt.heap ++ ext) ∧ rt1.deallocs = rt.deallocs ∧
      (∀ x ∈ cells1.map Prod.fst, rt.heap.at x = none) := by
  intro ls
  induction ls with
  | nil =>
    intro rt slot cells rcN hc _ _
    exact ⟨rt, slot, [], rfl, hc, rfl, ⟨[], by simp⟩, rfl, by simp⟩
  | cons l ls ih =>
    intro rt slot cells rcN hc hnone hrc
    obtain ⟨rc, o, hs, hrc2⟩ := ownsChain_head hc hnone hrc
    have hlenpos : 0 < rt.heap.length := Nat.lt_of_lt_of_le (Heap.at_lt hs).1 (Heap.at_lt hs).2
    have hc1 : ownsChain (rt.heap ++ [some ⟨1, .traceback slot l NULL⟩]) (rt.heap.length + 1)
        ((rt.heap.length + 1, l) :: cells) := by
      refine ⟨rfl, ?_, slot, ?_, ownsChain_append _ cells slot hc⟩
      · show rt.heap.length + 1 ≠ 1
        omega
      · have := Heap.at_alloc_new rt.heap (.traceback slot l NULL)
        simpa [alloc] using this
    obtain ⟨rt1, head, cells1, hrun, hch, hmap, ⟨ext, hext⟩, hdl, hfresh⟩ :=
      ih ⟨rt.heap ++ [some ⟨1, .traceback slot l NULL⟩], rt.deallocs⟩ (rt.heap.length + 1)
        ((rt.heap.length + 1, l) :: cells) rcN hc1 (Heap.at_append_left _ hnone) hrc
    refine ⟨rt1, head, cells1 ++ [(rt.heap.length + 1, l)], ?_, ?_, ?_, ?_, hdl, ?_⟩
    · simp only [hereAll, here_true_eq rt l slot rc o hs hrc2]
      exact hrun
    · simpa [List.append_assoc] using hch
    · simp [hmap]
    · exact ⟨[some ⟨1, .traceback slot l NULL⟩] ++ ext, by rw [hext]; simp⟩
    · intro x hx
      simp only [List.map_append, List.map_cons, List.map_nil, List.mem_append,
        List.mem_singleton] at hx
      rcases hx with hx | hx
      · have := hfresh x hx
        cases hxa : rt.heap.at x with
        | none => rfl
        | some v =>
          have h2 := Heap.at_append_left [some ⟨1, .traceback slot l NULL⟩] hxa
          rw [h2] at this
          exact absurd this (by simp)
      · rw [hx]
        exact Heap.at_fresh _

/-- C1, as stated, fails with the constructor of the specification, which does
not increment `tb_next`: the second call of `here` over `baseHeap` releases the
only reference to the first node (at `6`), whose destructor runs and frees it;
the final head (at `7`) still points to it, and `getLines` on the head reads
the freed node. -/
theorem C1_counterexample :
    (hereAll specCtorIncrefsNext ⟨baseHeap, []⟩ None [⟨10, 2, 3⟩, ⟨20, 2, 4⟩]).map
        (fun r => (r.2, r.1.deallocs, r.1.heap.at 6, r.1.heap.at 7)) =
      .ok (7, [6], none, some ⟨1, .traceback 6 ⟨20, 2, 4⟩ NULL⟩) ∧
    (hereAll specCtorIncrefsNext ⟨baseHeap, []⟩ None [⟨10, 2, 3⟩, ⟨20, 2, 4⟩]).bind
        (fun r => BoxedTraceback.getLines r.1.heap r.2) = .error .badPointer := by
  decide

/-- C1 (amended): for every non-empty list of locations prepended in order with
`here`, with a constructor that increments the count of `tb_next`, onto a slot
that holds the live `None`, `getLines` on the final head returns a list whose
records are the `(file, func, line)` of the locations in reverse order of
prepending, one per location: most recent first. -/
theorem C1_getLines_most_recent_first (increfNext : Bool) (rt : Runtime) (ls : List LineInfo)
    (rcN : Int) (hctor : increfNext = true) (hne : ls ≠ [])
    (hnone : rt.heap.at None = some ⟨rcN, .none⟩) (hrc : rcN ≠ 0) :
    ∃ rt1 head h2 lines, hereAll increfNext rt None ls = .ok (rt1, head) ∧
      BoxedTraceback.getLines rt1.heap head = .ok (h2, lines) ∧
      recordsAt h2 lines = some (ls.reverse.map LineInfo.record) ∧
      (ls.reverse.map LineInfo.record).length = ls.length := by
  subst hctor
  obtain ⟨rt1, head, cells1, hrun, hch, hmap, _, _, _⟩ :=
    hereAll_true_chain ls rt None [] rcN rfl hnone hrc
  rw [List.append_nil] at hch
  cases cells1 with
  | nil =>
    have : ls.reverse = [] := by simpa using hmap.symm
    exact absurd (List.reverse_eq_nil_iff.1 this) hne
  | cons c rest =>
    obtain ⟨hic, _⟩ := ownsChain_isChain _ head hch
    obtain ⟨_, _, next, hat, _⟩ := hch
    rw [hmap] at hic
    obtain ⟨h2, lines, hget, hrec⟩ := getLines_chain rt1.heap head ls.reverse 1 next c.2 hic hat
    exact ⟨rt1, head, h2, lines, hrun, hget, hrec, by simp⟩

/-- The locations `(a.py, f, 10)`, `(a.py, g, 20)`, `(a.py, h, 30)` over
`baseHeap`: the three calls of `here` give `sampleHeap` with its head at `8`,
and `getLines` returns the list at `9` with the records of lines 30, 20, 10. -/
theorem C1_getLines_most_recent_first_witness :
    (∃ rt1 head h2 lines, hereAll true ⟨baseHeap, []⟩ None sampleLocations = .ok (rt1, head) ∧
      BoxedTraceback.getLines rt1.heap head = .ok (h2, lines) ∧
      recordsAt h2 lines = some (sampleLocations.reverse.map LineInfo.record) ∧
      (sampleLocations.reverse.map LineInfo.record).length = sampleLocations.length) ∧
    hereAll true ⟨baseHeap, []⟩ None sampleLocations = .ok (⟨sampleHeap, []⟩, 8) ∧
    BoxedTraceback.getLines sampleHeap 8 = .ok (cachedHeap, 9) ∧
    recordsAt cachedHeap 9 = some [(2, 5, 30), (2, 4, 20), (2, 3, 10)] :=
  ⟨C1_getLines_most_recent_first true ⟨baseHeap, []⟩ sampleLocations 10 rfl (by decide)
    (by decide) (by decide), by decide, by decide, by decide⟩

/-! ## The release of a chain (C8) -/

theorem canRelease_iff (h : Heap) (l : List Addr) :
    canRelease h l = true ↔
      ∀ s ∈ l, ∃ rc t, h.at s = some ⟨rc, .str t⟩ ∧ (l.count s : Int) ≤ rc := by
  unfold canRelease
  rw [List.all_eq_true]
  constructor
  · intro hall s hs
    have := hall s hs
    split at this
    · rename_i rc t heq
      exact ⟨rc, t, heq, by simpa using this⟩
    · exact absurd this (by simp)
  · intro hall s hs
    obtain ⟨rc, t, heq, hle⟩ := hall s hs
    rw [heq]
    simpa using hle

/-- Strings stay releasable when the heap changes at other addresses only. -/
theorem canRelease_of_agree {h h2 : Heap} {l : List Addr}
    (hag : ∀ s t rc, h.at s = some ⟨rc, .str t⟩ → h2.at s = some ⟨rc, .str t⟩)
    (hc : canRelease h l = true) : canRelease h2 l = true := by
  rw [canRelease_iff] at hc ⊢
  intro s hs
  obtain ⟨rc, t, heq, hle⟩ := hc s hs
  exact ⟨rc, t, hag s t rc heq, hle⟩

/-- The release of the first string reference of a list. -/
theorem decref_string (rt : Runtime) (s : Addr) (rest : List Addr) (fuel : Nat)
    (hc : canRelease rt.heap (s :: rest) = true) :
    ∃ h2, decref (fuel + 1) rt s = .ok ⟨h2, rt.deallocs⟩ ∧ canRelease h2 rest = true ∧
      ∀ x, x ≠ s → h2.at x = rt.heap.at x := by
  rw [canRelease_iff] at hc
  obtain ⟨rc, t, heq, hle⟩ := hc s (List.mem_cons_self _ _)
  have hlt := Heap.at_lt heq
  rw [List.count_cons_self] at hle
  by_cases hz : rc - 1 = 0
  · refine ⟨rt.heap.put s none, ?_, ?_, fun x hx => Heap.at_put_ne _ _ (Ne.symm hx)⟩
    · have hat1 : (rt.heap.put s (some ⟨rc - 1, .str t⟩)).at s = some ⟨rc - 1, .str t⟩ :=
        Heap.at_put_same _ hlt.1 hlt.2
      simp only [decref, heq, if_pos hz, tp_dealloc, hat1, PyObject_GC_Del, Heap.put_put]
    · have hnot : s ∉ rest := by
        intro hmem
        have : 0 < rest.count s := List.count_pos_iff.2 hmem
        push_cast at hle
        omega
      rw [canRelease_iff]
      intro x hx
      have hxs : x ≠ s := fun e => hnot (e ▸ hx)
      obtain ⟨rc2, t2, heq2, hle2⟩ := hc x (List.mem_cons_of_mem _ hx)
      refine ⟨rc2, t2, by rw [Heap.at_put_ne _ _ (Ne.symm hxs)]; exact heq2, ?_⟩
      rw [List.count_cons_of_ne hxs] at hle2
      exact hle2
  · refine ⟨rt.heap.put s (some ⟨rc - 1, .str t⟩), ?_, ?_,
      fun x hx => Heap.at_put_ne _ _ (Ne.symm hx)⟩
    · simp only [decref, heq, if_neg hz]
    · rw [canRelease_iff]
      intro x hx
      by_cases hxs : x = s
      · subst hxs
        refine ⟨rc - 1, t, Heap.at_put_same _ hlt.1 hlt.2, ?_⟩
        push_cast at hle ⊢
        omega
      · obtain ⟨rc2, t2, heq2, hle2⟩ := hc x (List.mem_cons_of_mem _ hx)
        refine ⟨rc2, t2, by rw [Heap.at_put_ne _ _ (Ne.symm hxs)]; exact heq2, ?_⟩
        rw [List.count_cons_of_ne hxs] at hle2
        exact hle2

/-- A chain stays a chain when the heap changes at other addresses only. -/
theorem ownsChain_of_agree {h h2 : Heap} : ∀ (cells : List (Addr × LineInfo)) (a : Addr),
    (∀ x ∈ cells.map Prod.fst, h2.at x = h.at x) → ownsChain h a cells → ownsChain h2 a cells := by
  intro cells
  induction cells with
  | nil => intro a _ hc; exact hc
  | cons c rest ih =>
    intro a hag hc
    obtain ⟨h1, hn, next, hat, hrest⟩ := hc
    refine ⟨h1, hn, next, ?_, ih next (fun x hx => hag x (List.mem_cons_of_mem _ hx)) hrest⟩
    rw [hag a (by rw [h1]; simp)]
    exact hat

theorem stringRefs_append (xs ys : List LineInfo) :
    stringRefs (xs ++ ys) = stringRefs xs ++ stringRefs ys := by
  simp [stringRefs]

/-- The destructor of a node whose fields are known, step by step. -/
theorem dealloc_eq (dec : Runtime → Addr → Except Fault Runtime) (rt rt1 rt2 rt3 : Runtime)
    (b next : Addr) (li : LineInfo)
    (h0 : rt.heap.at b = some ⟨0, .traceback next li NULL⟩)
    (h1 : dec { rt with deallocs := rt.deallocs ++ [b] } next = .ok rt1)
    (hb1 : rt1.heap.at b = some ⟨0, .traceback next li NULL⟩)
    (h2 : dec rt1 li.file = .ok rt2)
    (hb2 : rt2.heap.at b = some ⟨0, .traceback next li NULL⟩)
    (h3 : dec rt2 li.func = .ok rt3)
    (hb3 : rt3.heap.at b = some ⟨0, .traceback next li NULL⟩) :
    BoxedTraceback.dealloc dec rt b = .ok { rt3 with heap := rt3.heap.put b none } := by
  simp only [BoxedTraceback.dealloc, tbField, h0, h1, hb1, h2, hb2, h3, hb3, Py_XDECREF, PyObject_GC_Del,
    bind, Except.bind, if_true]

theorem ne_of_traceback_of_str {h : Heap} {a s : Addr} {rc rc2 : Int} {next pl : Addr}
    {li : LineInfo} {t : List Char} (ha : h.at a = some ⟨rc, .traceback next li pl⟩)
    (hs : h.at s = some ⟨rc2, .str t⟩) : a ≠ s := by
  intro e
  rw [e, hs] at ha
  simp at ha

/-- The first reference of a releasable list is to a live string. -/
theorem canRelease_head {h : Heap} {s : Addr} {rest : List Addr}
    (hc : canRelease h (s :: rest) = true) : ∃ rc t, h.at s = some ⟨rc, .str t⟩ := by
  obtain ⟨rc, t, heq, _⟩ := (canRelease_iff h _).1 hc s (List.mem_cons_self _ _)
  exact ⟨rc, t, heq⟩

/-- The release of the one reference to the head of a chain whose nodes have
one reference each: the destructor runs on every node, head first, every node
is freed, `None` loses the reference of the last node, the strings of the
chain lose theirs, and a traceback node outside the chain is left as it is. -/
theorem decref_chain : ∀ (cells : List (Addr × LineInfo)) (a : Addr) (rt : Runtime)
    (fuel : Nat) (post : List Addr) (rcN : Int),
    ownsChain rt.heap a cells → (cells.map Prod.fst).Nodup →
    rt.heap.at None = some ⟨rcN, .none⟩ → rcN - 1 ≠ 0 →
    canRelease rt.heap (stringRefs (cells.map Prod.snd).reverse ++ post) = true →
    cells.length + 1 ≤ fuel →
    ∃ rt2, decref fuel rt a = .ok rt2 ∧ rt2.deallocs = rt.deallocs ++ cells.map Prod.fst ∧
      (∀ x ∈ cells.map Prod.fst, rt2.heap.at x = none) ∧
      rt2.heap.at None = some ⟨rcN - 1, .none⟩ ∧ canRelease rt2.heap post = true ∧
      (∀ x rc n l p, rt.heap.at x = some ⟨rc, .traceback n l p⟩ → x ∉ cells.map Prod.fst →
        rt2.heap.at x = some ⟨rc, .traceback n l p⟩) := by
  intro cells
  induction cells with
  | nil =>
    intro a rt fuel post rcN hc _ hnone hrc hcan hfuel
    have ha : a = None := hc
    subst ha
    obtain ⟨f, rfl⟩ : ∃ f, fuel = f + 1 := ⟨fuel - 1, by simp at hfuel; omega⟩
    have hlt := Heap.at_lt hnone
    refine ⟨{ rt with heap := rt.heap.put None (some ⟨rcN - 1, .none⟩) }, ?_, by simp,
      by simp, Heap.at_put_same _ hlt.1 hlt.2, ?_, ?_⟩
    · simp only [decref, hnone, if_neg hrc]
    · refine canRelease_of_agree (fun s t rc hs => ?_) (by simpa [stringRefs] using hcan)
      have hne : None ≠ s := by
        intro e
        rw [← e, hnone] at hs
        simp at hs
      show Heap.at (rt.heap.put None _) s = _
      rw [Heap.at_put_ne _ _ hne]
      exact hs
    · intro x rc n l p hx _
      have hne : None ≠ x := by
        intro e
        rw [← e, hnone] at hx
        simp at hx
      show Heap.at (rt.heap.put None _) x = _
      rw [Heap.at_put_ne _ _ hne]
      exact hx
  | cons c rest ih =>
    intro a rt fuel post rcN hc hnd hnone hrc hcan hfuel
    obtain ⟨ha, hn, next, hat, hrest⟩ := hc
    obtain ⟨f, rfl⟩ : ∃ f, fuel = f + 2 :=
      ⟨fuel - 2, by simp only [List.length_cons] at hfuel; omega⟩
    rw [List.map_cons, List.nodup_cons, ← ha] at hnd
    obtain ⟨hnotin, hnd2⟩ := hnd
    have hlt := Heap.at_lt hat
    have e10 : (1 : Int) - 1 = 0 := by norm_num
    have hat1 : (rt.heap.put a (some ⟨0, .traceback next c.2 NULL⟩)).at a
        = some ⟨0, .traceback next c.2 NULL⟩ := Heap.at_put_same _ hlt.1 hlt.2
    have hag1 : ∀ x, x ≠ a →
        (rt.heap.put a (some ⟨0, .traceback next c.2 NULL⟩)).at x = rt.heap.at x :=
      fun x hx => Heap.at_put_ne _ _ (Ne.symm hx)
    have hcanA : canRelease rt.heap
        (stringRefs (rest.map Prod.snd).reverse ++ (c.2.file :: c.2.func :: post)) = true := by
      simpa [stringRefs_append, stringRefs, List.append_assoc] using hcan
    have hcan1 : canRelease (rt.heap.put a (some ⟨0, .traceback next c.2 NULL⟩))
        (stringRefs (rest.map Prod.snd).reverse ++ (c.2.file :: c.2.func :: post)) = true :=
      canRelease_of_agree
        (fun s t rc hs => by rw [hag1 s (Ne.symm (ne_of_traceback_of_str hat hs))]; exact hs) hcanA
    obtain ⟨rt1, hrun1, hdl1, hfree1, hnone1, hcan1b, hframe1⟩ :=
      ih next ⟨rt.heap.put a (some ⟨0, .traceback next c.2 NULL⟩), rt.deallocs ++ [a]⟩ (f + 1)
        (c.2.file :: c.2.func :: post) rcN
        (ownsChain_of_agree rest next
          (fun x hx => hag1 x (fun e => hnotin (e ▸ hx))) hrest)
        hnd2 (by rw [hag1 None (Ne.symm hn)]; exact hnone) hrc hcan1
        (by simp only [List.length_cons] at hfuel; omega)
    have hb1 : rt1.heap.at a = some ⟨0, .traceback next c.2 NULL⟩ :=
      hframe1 a 0 next c.2 NULL hat1 hnotin
    -- the two strings of the node
    obtain ⟨rcf, tf, hfile⟩ := canRelease_head hcan1b
    obtain ⟨h2, hrun2, hcan2, hag2⟩ := decref_string rt1 c.2.file (c.2.func :: post) f hcan1b
    have hb2 : h2.at a = some ⟨0, .traceback next c.2 NULL⟩ := by
      rw [hag2 a (ne_of_traceback_of_str hb1 hfile)]
      exact hb1
    obtain ⟨rcg, tg, hfunc⟩ := canRelease_head hcan2
    obtain ⟨h3, hrun3, hcan3, hag3⟩ :=
      decref_string ⟨h2, rt1.deallocs⟩ c.2.func post f hcan2
    have hb3 : h3.at a = some ⟨0, .traceback next c.2 NULL⟩ := by
      rw [hag3 a (ne_of_traceback_of_str hb2 hfunc)]
      exact hb2
    have hde := dealloc_eq (decref (f + 1))
      ⟨rt.heap.put a (some ⟨0, .traceback next c.2 NULL⟩), rt.deallocs⟩ rt1
      ⟨h2, rt1.deallocs⟩ ⟨h3, rt1.deallocs⟩ a next c.2 hat1 hrun1 hb1 hrun2 hb2 hrun3 hb3
    have hlt3 := Heap.at_lt hb3
    refine ⟨⟨h3.put a none, rt1.deallocs⟩, ?_, ?_, ?_, ?_, ?_, ?_⟩
    · simp only [decref, hat, e10, if_true, tp_dealloc, hat1]
      exact hde
    · rw [hdl1, List.map_cons, ← ha]
      simp
    · intro x hx
      rw [List.map_cons, ← ha] at hx
      rcases List.mem_cons.1 hx with rfl | hx
      · exact Heap.at_put_same _ hlt3.1 hlt3.2
      · have hxa : x ≠ a := fun e => hnotin (e ▸ hx)
        have hx1 : rt1.heap.at x = none := hfree1 x hx
        have hxf : x ≠ c.2.file := by
          intro e
          rw [e, hfile] at hx1
          simp at hx1
        have hx2 : h2.at x = none := by rw [hag2 x hxf]; exact hx1
        have hxg : x ≠ c.2.func := by
          intro e
          rw [e, hfunc] at hx2
          simp at hx2
        show Heap.at (h3.put a none) x = none
        rw [Heap.at_put_ne _ _ (Ne.symm hxa), hag3 x hxg]
        exact hx2
    · have hNf : None ≠ c.2.file := by
        intro e
        rw [← e, hnone1] at hfile
        simp at hfile
      have hN2 : h2.at None = some ⟨rcN - 1, .none⟩ := by
        rw [hag2 None hNf]; exact hnone1
      have hNg : None ≠ c.2.func := by
        intro e
        rw [← e, hN2] at hfunc
        simp at hfunc
      show Heap.at (h3.put a none) None = _
      rw [Heap.at_put_ne _ _ hn, hag3 None hNg]
      exact hN2
    · refine canRelease_of_agree (fun s t rc hs => ?_) hcan3
      show Heap.at (h3.put a none) s = _
      rw [Heap.at_put_ne _ _ (ne_of_traceback_of_str hb3 hs)]
      exact hs
    · intro x rc n l p hx hxnot
      rw [List.map_cons, ← ha, List.mem_cons, not_or] at hxnot
      obtain ⟨hxa, hxrest⟩ := hxnot
      have hx0 : (rt.heap.put a (some ⟨0, .traceback next c.2 NULL⟩)).at x
          = some ⟨rc, .traceback n l p⟩ := by rw [hag1 x hxa]; exact hx
      have hx1 := hframe1 x rc n l p hx0 hxrest
      have hx2 : h2.at x = some ⟨rc, .traceback n l p⟩ := by
        rw [hag2 x (ne_of_traceback_of_str hx1 hfile)]; exact hx1
      have hx3 : h3.at x = some ⟨rc, .traceback n l p⟩ := by
        rw [hag3 x (ne_of_traceback_of_str hx2 hfunc)]; exact hx2
      show Heap.at (h3.put a none) x = _
      rw [Heap.at_put_ne _ _ (Ne.symm hxa)]
      exact hx3

/-- C8, as stated, fails with the constructor of the specification, which does
not increment `tb_next`: the second call of `here` over `baseHeap` already runs
the destructor on the first node (at `6`) and frees it, while the final head
(at `7`) still points to it; releasing the slot's reference to the head then
runs the destructor of the head, which releases the freed node again. -/
theorem C8_counterexample :
    (hereAll specCtorIncrefsNext ⟨baseHeap, []⟩ None [⟨10, 2, 3⟩, ⟨20, 2, 4⟩]).map
        (fun r => (r.2, r.1.deallocs, r.1.heap.at 6, r.1.heap.at 7)) =
      .ok (7, [6], none, some ⟨1, .traceback 6 ⟨20, 2, 4⟩ NULL⟩) ∧
    (hereAll specCtorIncrefsNext ⟨baseHeap, []⟩ None [⟨10, 2, 3⟩, ⟨20, 2, 4⟩]).bind
        (fun r => Py_DECREF r.1 r.2) = .error .badPointer := by
  decide

/-- C8 (amended): for every list of `N` locations whose strings are live and
hold a reference for each use, after the calls of `here`, with a constructor
that increments the count of `tb_next`, on a slot that held `None` (which has
another reference besides the slot's), the chain has `N` nodes with one
reference each, and releasing the slot's reference to the head ends without a
fault (no double free), runs `BoxedTraceback::dealloc` exactly once on each
node, head first, leaves every node freed, and leaves `None` alive with one
reference less. -/
theorem C8_release_frees_each_node_once (increfNext : Bool) (rt : Runtime)
    (ls : List LineInfo) (rcN : Int) (hctor : increfNext = true)
    (hnone : rt.heap.at None = some ⟨rcN, .none⟩) (hrc : 1 < rcN)
    (hstr : canRelease rt.heap (stringRefs ls) = true) :
    ∃ rt1 head cells rt2, hereAll increfNext rt None ls = .ok (rt1, head) ∧
      ownsChain rt1.heap head cells ∧ cells.map Prod.snd = ls.reverse ∧
      cells.length = ls.length ∧ (cells.map Prod.fst).Nodup ∧
      Py_DECREF rt1 head = .ok rt2 ∧
      rt2.deallocs = rt.deallocs ++ cells.map Prod.fst ∧
      (∀ x ∈ cells.map Prod.fst, rt2.heap.at x = none) ∧
      rt2.heap.at None = some ⟨rcN - 1, .none⟩ := by
  subst hctor
  have hrc0 : rcN ≠ 0 := by omega
  have hrc1 : rcN - 1 ≠ 0 := by omega
  obtain ⟨rt1, head, cells, hrun, hch, hmap, ⟨ext, hext⟩, hdl, _⟩ :=
    hereAll_true_chain ls rt None [] rcN rfl hnone hrc0
  rw [List.append_nil] at hch
  obtain ⟨hic, haddrs⟩ := ownsChain_isChain cells head hch
  obtain ⟨hnd, _, _⟩ := chainAddrs_nodup rt1.heap _ head hic
  rw [haddrs] at hnd
  have hlen : cells.length = ls.length := by
    have := congrArg List.length hmap
    simpa using this
  have hfuel : cells.length + 1 ≤ rt1.heap.length + 1 := by
    have := isChain_length_le rt1.heap _ head hic
    simp only [List.length_map] at this
    omega
  have hcan : canRelease rt1.heap (stringRefs (cells.map Prod.snd).reverse ++ []) = true := by
    rw [hmap, List.reverse_reverse, List.append_nil]
    exact canRelease_of_agree
      (fun s t rc hs => by rw [hext]; exact Heap.at_append_left _ hs) hstr
  obtain ⟨rt2, hrel, hdl2, hfree, hnone2, _, _⟩ :=
    decref_chain cells head rt1 (rt1.heap.length + 1) [] rcN hch hnd
      (by rw [hext]; exact Heap.at_append_left _ hnone) hrc1 hcan hfuel
  exact ⟨rt1, head, cells, rt2, hrun, hch, hmap, hlen, hnd, hrel, by rw [hdl2, hdl], hfree,
    hnone2⟩

/-- The three locations of `sampleLocations` over `baseHeap`: the chain is that
of `sampleHeap`, and the release of its head runs the destructor on `8`, `7`,
`6`, frees every node and every string, and leaves `None` with 9 references. -/
theorem C8_release_frees_each_node_once_witness :
    (∃ rt1 head cells rt2, hereAll true ⟨baseHeap, []⟩ None sampleLocations = .ok (rt1, head) ∧
      ownsChain rt1.heap head cells ∧ cells.map Prod.snd = sampleLocations.reverse ∧
      cells.length = sampleLocations.length ∧ (cells.map Prod.fst).Nodup ∧
      Py_DECREF rt1 head = .ok rt2 ∧
      rt2.deallocs = [] ++ cells.map Prod.fst ∧
      (∀ x ∈ cells.map Prod.fst, rt2.heap.at x = none) ∧
      rt2.heap.at None = some ⟨10 - 1, .none⟩) ∧
    hereAll true ⟨baseHeap, []⟩ None sampleLocations = .ok (⟨sampleHeap, []⟩, 8) ∧
    Py_DECREF ⟨sampleHeap, []⟩ 8 =
      .ok ⟨[some ⟨9, .none⟩, none, none, none, none, none, none, none], [8, 7, 6]⟩ :=
  ⟨C8_release_frees_each_node_once true ⟨baseHeap, []⟩ sampleLocations 10 rfl (by decide)
    (by decide) (by decide), by decide, by decide⟩

/-- The release of the head of `cachedHeap`, evaluated: the destructor runs on
`8`, `7`, `6`, and `Py_XDECREF(self->py_lines)` releases the cached list at `9`. -/
theorem sample_release_cached :
    (Py_DECREF ⟨cachedHeap, []⟩ 8).map (fun r => (r.deallocs, r.heap.at 9, r.heap.at 1)) =
      .ok ([8, 7, 6], none, some ⟨9, .none⟩) := by
  decide

end pyston
